import Mathlib

/-!
# Extraction of derived secrets from a JSON secret (`provider/secret_value.go`)

A shallow embedding of `SecretValue.String` and `SecretValue.getJsonSecrets`, together with
the two library calls the latter makes:

* `json.Unmarshal` into a `map[string]interface{}` is embedded as `jsonUnmarshal`, a decoder
  for the JSON grammar accepted by Go's `encoding/json`;
* `jmespath.Search` is a field of `Runtime`: the theorems hold for every query evaluator.
  `fieldSearch` is the evaluator for bare identifier expressions, used to run examples;
  `Jmes.chainResult` embeds the library on paths that are chains of keys, and `Jmes.keysFirst`
  on the expression `keys(@)[0]`, whose result depends on the iteration order of a map.

Go's `string` is a Lean `String`, `[]byte` is a list of bytes, and a Go map is an association
list with distinct keys whose iteration order is chosen by the `Runtime`.
-/

/-- A Go `string`. -/
abbrev GoString := String

/-- A Go `[]byte`. -/
abbrev Bytes := List UInt8

/-- The conversion `[]byte(s)`: the UTF-8 bytes of the string. -/
def toBytes (s : GoString) : Bytes := s.data.flatMap String.utf8EncodeChar

/-- The values `encoding/json` stores in an `interface{}`: `nil`, `bool`, `float64`, `string`,
`[]interface{}` and `map[string]interface{}`. A `float64` is kept as the literal it was read
from, which determines it. `null` is the `nil` interface value. -/
inductive JsonValue where
  | null
  | bool (b : Bool)
  | number (lit : GoString)
  | string (s : GoString)
  | array (elems : List JsonValue)
  | object (members : List (GoString × JsonValue))

/-- The entries of a `map[string]interface{}`. -/
abbrev JsonMap := List (GoString × JsonValue)

/-- The assignment `m[k] = v` on a map: an existing key keeps its place and takes the new
value, a new key is added. -/
def mapInsert : JsonMap → GoString → JsonValue → JsonMap
  | [], k, v => [(k, v)]
  | (k0, v0) :: rest, k, v =>
    if k0 = k then (k0, v) :: rest else (k0, v0) :: mapInsert rest k v

/-- The lookup `m[k]`, with `nil` for an absent key. -/
def mapIndex : JsonMap → GoString → JsonValue
  | [], _ => JsonValue.null
  | (k0, v0) :: rest, k => if k0 = k then v0 else mapIndex rest k

/-! ## `encoding/json`: the decoder -/

namespace Json

/-- JSON whitespace: space, tab, line feed, carriage return. -/
def isSpace (c : Nat) : Bool := c == 32 || c == 9 || c == 10 || c == 13

/-- An ASCII decimal digit. -/
def isDigit (c : Nat) : Bool := decide (48 ≤ c) && decide (c ≤ 57)

/-- Drops leading whitespace. -/
def skipSpace : List Nat → List Nat
  | [] => []
  | c :: cs => if isSpace c then skipSpace cs else c :: cs

/-- The value of a hexadecimal digit. -/
def hexVal (c : Nat) : Option Nat :=
  if 48 ≤ c ∧ c ≤ 57 then some (c - 48)
  else if 97 ≤ c ∧ c ≤ 102 then some (c - 87)
  else if 65 ≤ c ∧ c ≤ 70 then some (c - 55)
  else none

/-- The function `getu4` of `decode.go`: the code unit of a leading `\uXXXX`. -/
def getu4 : List Nat → Option Nat
  | 92 :: 117 :: a :: b :: c :: d :: _ =>
    match hexVal a, hexVal b, hexVal c, hexVal d with
    | some a, some b, some c, some d => some (((a * 16 + b) * 16 + c) * 16 + d)
    | _, _, _, _ => none
  | _ => none

/-- A UTF-8 continuation byte. -/
def isCont (c : Nat) : Bool := decide (128 ≤ c) && decide (c ≤ 191)

/-- The function `utf8.DecodeRune`: the first rune of the input and its width in bytes; an
ill-formed sequence yields U+FFFD with width one. -/
def decodeRune : List Nat → Nat × Nat
  | [] => (0xFFFD, 0)
  | b0 :: rest =>
    if b0 < 0x80 then (b0, 1)
    else if 0xC2 ≤ b0 ∧ b0 ≤ 0xDF then
      match rest with
      | b1 :: _ =>
        if isCont b1 then ((b0 - 0xC0) * 64 + (b1 - 0x80), 2) else (0xFFFD, 1)
      | _ => (0xFFFD, 1)
    else if 0xE0 ≤ b0 ∧ b0 ≤ 0xEF then
      let lo := if b0 = 0xE0 then 0xA0 else 0x80
      let hi := if b0 = 0xED then 0x9F else 0xBF
      match rest with
      | b1 :: b2 :: _ =>
        if lo ≤ b1 ∧ b1 ≤ hi ∧ isCont b2 = true then
          (((b0 - 0xE0) * 64 + (b1 - 0x80)) * 64 + (b2 - 0x80), 3)
        else (0xFFFD, 1)
      | _ => (0xFFFD, 1)
    else if 0xF0 ≤ b0 ∧ b0 ≤ 0xF4 then
      let lo := if b0 = 0xF0 then 0x90 else 0x80
      let hi := if b0 = 0xF4 then 0x8F else 0xBF
      match rest with
      | b1 :: b2 :: b3 :: _ =>
        if lo ≤ b1 ∧ b1 ≤ hi ∧ isCont b2 = true ∧ isCont b3 = true then
          ((((b0 - 0xF0) * 64 + (b1 - 0x80)) * 64 + (b2 - 0x80)) * 64 + (b3 - 0x80), 4)
        else (0xFFFD, 1)
      | _ => (0xFFFD, 1)
    else (0xFFFD, 1)

/-- The single-character escapes the scanner accepts after a backslash. -/
def simpleEscape (c : Nat) : Option Char :=
  if c = 34 then some (Char.ofNat 34)
  else if c = 92 then some (Char.ofNat 92)
  else if c = 47 then some (Char.ofNat 47)
  else if c = 98 then some (Char.ofNat 8)
  else if c = 102 then some (Char.ofNat 12)
  else if c = 110 then some (Char.ofNat 10)
  else if c = 114 then some (Char.ofNat 13)
  else if c = 116 then some (Char.ofNat 9)
  else none

/-- Prepends a decoded character to the result of reading the rest of a string. -/
def consChar (ch : Char) : Option (List Char × List Nat) → Option (List Char × List Nat)
  | some (chars, rest) => some (ch :: chars, rest)
  | none => none

/-- Reads a string literal after its opening quote, as the scanner validates it and
`unquote` decodes it: escapes are replaced, a surrogate pair becomes one rune, an unpaired
surrogate and every byte of ill-formed UTF-8 become U+FFFD. Yields the characters and the input
after the closing quote. Every step consumes a byte, so the input length plus one is enough fuel. -/
def readString : Nat → List Nat → Option (List Char × List Nat)
  | 0, _ => none
  | _ + 1, [] => none
  | fuel + 1, c :: cs =>
    if c = 34 then some ([], cs)
    else if c = 92 then
      match cs with
      | [] => none
      | e :: es =>
        if e = 117 then
          match getu4 (c :: cs) with
          | none => none
          | some rr =>
            let after := es.drop 4
            if 0xD800 ≤ rr ∧ rr < 0xE000 then
              match getu4 after with
              | some rr1 =>
                if rr < 0xDC00 ∧ 0xDC00 ≤ rr1 ∧ rr1 < 0xE000 then
                  consChar (Char.ofNat ((rr - 0xD800) * 1024 + (rr1 - 0xDC00) + 0x10000))
                    (readString fuel (after.drop 6))
                else consChar (Char.ofNat 0xFFFD) (readString fuel after)
              | none => consChar (Char.ofNat 0xFFFD) (readString fuel after)
            else consChar (Char.ofNat rr) (readString fuel after)
        else
          match simpleEscape e with
          | some ch => consChar ch (readString fuel es)
          | none => none
    else if c < 32 then none
    else if c < 128 then consChar (Char.ofNat c) (readString fuel cs)
    else
      consChar (Char.ofNat (decodeRune (c :: cs)).1)
        (readString fuel ((c :: cs).drop (decodeRune (c :: cs)).2))

/-- Splits off the leading run of decimal digits. -/
def spanDigits : List Nat → List Nat × List Nat
  | [] => ([], [])
  | c :: cs =>
    if isDigit c then ((c - 48) :: (spanDigits cs).1, (spanDigits cs).2) else ([], c :: cs)

/-- The parts of a number literal: sign, integer digits, fraction digits, exponent sign and
exponent digits. -/
structure NumberLit where
  neg : Bool
  int : List Nat
  frac : List Nat
  expNeg : Bool
  exp : List Nat
deriving DecidableEq, Repr

/-- Reads the integer part of a number: a single `0`, or a nonzero digit and more digits. -/
def readInt : List Nat → Option (List Nat × List Nat)
  | [] => none
  | c :: cs =>
    if c = 48 then some ([0], cs)
    else if isDigit c then some ((c - 48) :: (spanDigits cs).1, (spanDigits cs).2)
    else none

/-- Reads an optional fraction: a dot and at least one digit. -/
def readFrac : List Nat → Option (List Nat × List Nat)
  | 46 :: cs =>
    match spanDigits cs with
    | ([], _) => none
    | (ds, rest) => some (ds, rest)
  | cs => some ([], cs)

/-- Reads an optional exponent: `e` or `E`, an optional sign and at least one digit. -/
def readExp : List Nat → Option (Bool × List Nat × List Nat)
  | [] => some (false, [], [])
  | c :: cs =>
    if c = 101 ∨ c = 69 then
      let neg := decide (cs.head? = some 45)
      let body := if cs.head? = some 45 ∨ cs.head? = some 43 then cs.drop 1 else cs
      match spanDigits body with
      | ([], _) => none
      | (ds, rest) => some (neg, ds, rest)
    else some (false, [], c :: cs)

/-- Reads a number literal by the grammar of the scanner. -/
def readNumber (input : List Nat) : Option (NumberLit × List Nat) :=
  let neg := decide (input.head? = some 45)
  let body := if input.head? = some 45 then input.drop 1 else input
  match readInt body with
  | none => none
  | some (int, r1) =>
    match readFrac r1 with
    | none => none
    | some (frac, r2) =>
      match readExp r2 with
      | none => none
      | some (expNeg, exp, r3) => some (⟨neg, int, frac, expNeg, exp⟩, r3)

/-- The number a list of decimal digits denotes. -/
def digitsVal (ds : List Nat) : Nat := ds.foldl (fun n d => n * 10 + d) 0

/-- The exponent as `strconv` accumulates it: digits stop counting once it reaches 10000. -/
def expVal (ds : List Nat) : Nat := ds.foldl (fun e d => if e < 10000 then e * 10 + d else e) 0

/-- The least magnitude that rounds to an infinite `float64`: `2^1024 - 2^970`. -/
def float64Limit : Nat := (2 ^ 128) ^ 8 - (2 ^ 97) ^ 10

/-- Whether `strconv.ParseFloat(lit, 64)` reports a range error, in which case
`convertNumber` fails and `Unmarshal` returns an `UnmarshalTypeError`. -/
def NumberLit.overflows (n : NumberLit) : Bool :=
  let m := digitsVal (n.int ++ n.frac)
  let e := expVal n.exp
  if n.expNeg then decide (float64Limit * 10 ^ (e + n.frac.length) ≤ m)
  else if n.frac.length ≤ e then decide (float64Limit ≤ m * 10 ^ (e - n.frac.length))
  else decide (float64Limit * 10 ^ (n.frac.length - e) ≤ m)

/-- The greatest nesting depth the scanner accepts. -/
def maxNestingDepth : Nat := 10000

/-- Reads the bytes of a literal name such as `true`. -/
def readName (name : List Nat) (input : List Nat) : Option (List Nat) :=
  if input.take name.length = name then some (input.drop name.length) else none

mutual
/-- Reads one JSON value at the head of the input (leading whitespace already skipped) into
the value `Unmarshal` stores in an `interface{}`. `depth` counts the enclosing arrays and
objects. Yields the value and the remaining input, or nothing when the text is malformed, nests
deeper than `maxNestingDepth`, or holds a number outside the range of `float64`. -/
def readValue : Nat → Nat → List Nat → Option (JsonValue × List Nat)
  | 0, _, _ => none
  | _ + 1, _, [] => none
  | fuel + 1, depth, c :: cs =>
    if c = 123 then
      if maxNestingDepth < depth + 1 then none
      else
        match skipSpace cs with
        | 125 :: rest => some (JsonValue.object [], rest)
        | rest => readMembers fuel (depth + 1) rest []
    else if c = 91 then
      if maxNestingDepth < depth + 1 then none
      else
        match skipSpace cs with
        | 93 :: rest => some (JsonValue.array [], rest)
        | rest => readElems fuel (depth + 1) rest []
    else if c = 34 then
      match readString (cs.length + 1) cs with
      | some (chars, rest) => some (JsonValue.string (String.mk chars), rest)
      | none => none
    else if c = 116 then
      match readName [114, 117, 101] cs with
      | some rest => some (JsonValue.bool true, rest)
      | none => none
    else if c = 102 then
      match readName [97, 108, 115, 101] cs with
      | some rest => some (JsonValue.bool false, rest)
      | none => none
    else if c = 110 then
      match readName [117, 108, 108] cs with
      | some rest => some (JsonValue.null, rest)
      | none => none
    else
      match readNumber (c :: cs) with
      | some (n, rest) =>
        if n.overflows then none
        else
          some (JsonValue.number
            (String.mk (((c :: cs).take ((c :: cs).length - rest.length)).map Char.ofNat)), rest)
      | none => none
/-- Reads the elements of an array after the opening bracket, up to the closing one. -/
def readElems : Nat → Nat → List Nat → List JsonValue → Option (JsonValue × List Nat)
  | 0, _, _, _ => none
  | fuel + 1, depth, input, acc =>
    match readValue fuel depth input with
    | none => none
    | some (v, rest) =>
      match skipSpace rest with
      | 44 :: rest1 => readElems fuel depth (skipSpace rest1) (acc ++ [v])
      | 93 :: rest1 => some (JsonValue.array (acc ++ [v]), rest1)
      | _ => none
/-- Reads the members of an object after the opening brace, up to the closing one. A repeated
key overwrites the earlier entry, as the map assignment does. -/
def readMembers : Nat → Nat → List Nat → JsonMap → Option (JsonValue × List Nat)
  | 0, _, _, _ => none
  | _ + 1, _, [], _ => none
  | fuel + 1, depth, c :: cs, acc =>
    if c = 34 then
      match readString (cs.length + 1) cs with
      | none => none
      | some (chars, rest) =>
        match skipSpace rest with
        | 58 :: rest1 =>
          match readValue fuel depth (skipSpace rest1) with
          | none => none
          | some (v, rest2) =>
            match skipSpace rest2 with
            | 44 :: rest3 =>
              readMembers fuel depth (skipSpace rest3) (mapInsert acc (String.mk chars) v)
            | 125 :: rest3 =>
              some (JsonValue.object (mapInsert acc (String.mk chars) v), rest3)
            | _ => none
        | _ => none
    else none
end

/-- Reads a whole document: one value between optional whitespace. Along a chain of nested
calls every second call has consumed a byte, so twice the input length plus two is enough
fuel. -/
def readDocument (input : List Nat) : Option JsonValue :=
  match readValue (2 * input.length + 2) 0 (skipSpace input) with
  | some (v, rest) => if skipSpace rest = [] then some v else none
  | none => none

end Json

/-- The outcome of `json.Unmarshal(value, &data)` for `var data map[string]interface{}`:
`failed` when the returned error is not nil, otherwise the map left in `data`, which stays the
`nil` map (`none`) when the document is `null`. -/
inductive Unmarshalled where
  | failed
  | ok (data : Option JsonMap)

/-- The call `json.Unmarshal(value, &data)` with `data` a `map[string]interface{}`: malformed
text fails; an object fills the map; `null` leaves the map `nil` without an error; an array,
string, number or boolean fails with an `UnmarshalTypeError`. -/
def jsonUnmarshal (value : Bytes) : Unmarshalled :=
  match Json.readDocument (value.map UInt8.toNat) with
  | none => Unmarshalled.failed
  | some (JsonValue.object members) => Unmarshalled.ok (some members)
  | some JsonValue.null => Unmarshalled.ok none
  | some _ => Unmarshalled.failed

/-! ## `github.com/jmespath/go-jmespath` and map iteration -/

/-- Whether the expression is one unquoted identifier, `[A-Za-z_][A-Za-z0-9_]*`. -/
def isIdentifier (expr : GoString) : Bool :=
  match expr.data with
  | [] => false
  | c :: cs => (c.isAlpha || c == '_') && cs.all (fun d => d.isAlphanum || d == '_')

/-- The call `jmespath.Search(expr, data)` for an expression that is one unquoted identifier:
the parser yields a field node, and the interpreter evaluates a field on a
`map[string]interface{}` as `m[key]`, which is `nil` for an absent key, for a key holding
`null`, and on the `nil` map. This evaluator covers that fragment of the language only and
rejects every other expression. -/
def fieldSearch (expr : GoString) (data : Option JsonMap) : Except GoString JsonValue :=
  if isIdentifier expr then Except.ok (mapIndex (data.getD []) expr)
  else Except.error "SyntaxError"

/-- Removes the element at position `i` of `x :: xs` (the last one when `i` is too large) and
yields it with the remaining elements in their order. -/
def pickAt {α : Type} : Nat → α → List α → α × List α
  | 0, x, xs => (x, xs)
  | _ + 1, x, [] => (x, [])
  | i + 1, x, y :: ys => ((pickAt i y ys).1, x :: (pickAt i y ys).2)

/-- The sequence in which a `range` loop visits the entries of a map. Go leaves the order
unspecified; it is fixed here by a list of choices, each picking the next entry among those
not yet visited. Every order arises from some list of choices. -/
def rangeOrder {α : Type} : List Nat → List α → List α
  | _, [] => []
  | [], x :: xs => x :: xs
  | k :: ks, x :: xs =>
    (pickAt (k % (xs.length + 1)) x xs).1 :: rangeOrder ks (pickAt (k % (xs.length + 1)) x xs).2

/-- What one call of `getJsonSecrets` takes from its environment: the query evaluator
`jmespath.Search`, from an expression and the decoded document to a result or an error, and
the choices that fix the iteration order of the `range` loop over the decoded map. -/
structure Runtime where
  search : GoString → Option JsonMap → Except GoString JsonValue
  order : List Nat

/-! ## `github.com/jmespath/go-jmespath`: paths that are chains of keys -/

namespace Jmes

/-- The first character of an unquoted identifier: a letter or an underscore. -/
def isIdentStart (c : Nat) : Bool :=
  (decide (65 ≤ c) && decide (c ≤ 90)) || (decide (97 ≤ c) && decide (c ≤ 122)) || c == 95

/-- A further character of an unquoted identifier: a letter, a digit or an underscore. -/
def isIdentTrail (c : Nat) : Bool := isIdentStart c || Json.isDigit c

/-- Splits off the leading run of identifier characters. -/
def spanIdent : List Nat → List Nat × List Nat
  | [] => ([], [])
  | c :: cs =>
    if isIdentTrail c then (c :: (spanIdent cs).1, (spanIdent cs).2) else ([], c :: cs)

/-- The tokens of a chain of keys: the current node `@`, the dot, and a key written as an
unquoted or a quoted identifier. -/
inductive Token where
  | current
  | dot
  | field (name : GoString)
deriving DecidableEq, Repr

/-- Prepends a token to the result of reading the rest of an expression. -/
def pushToken (t : Token) :
    Option (Except GoString (List Token)) → Option (Except GoString (List Token))
  | some (Except.ok tokens) => some (Except.ok (t :: tokens))
  | other => other

/-- The lexer on expressions made of unquoted identifiers, quoted identifiers, dots, `@` and
whitespace. A quoted identifier is decoded as a JSON string and is an error of the expression
when it is not one. The result is `none` when the expression holds any other character: such
expressions are not embedded. Every step consumes a byte, so the input length plus one is
enough fuel. -/
def tokenize : Nat → List Nat → Option (Except GoString (List Token))
  | 0, _ => none
  | _ + 1, [] => some (Except.ok [])
  | fuel + 1, c :: cs =>
    if isIdentStart c then
      pushToken (Token.field (String.mk ((spanIdent (c :: cs)).1.map Char.ofNat)))
        (tokenize fuel (spanIdent (c :: cs)).2)
    else if c = 46 then pushToken Token.dot (tokenize fuel cs)
    else if c = 64 then pushToken Token.current (tokenize fuel cs)
    else if c = 34 then
      match Json.readString (cs.length + 1) cs with
      | some (chars, rest) => pushToken (Token.field (String.mk chars)) (tokenize fuel rest)
      | none => some (Except.error "SyntaxError")
    else if Json.isSpace c then tokenize fuel cs
    else none

/-- The keys after the first step of a chain: each a dot and an identifier. -/
def parseTail : List Token → Option (List GoString)
  | [] => some []
  | Token.dot :: Token.field name :: rest => (parseTail rest).map (fun keys => name :: keys)
  | _ => none

/-- The keys of a chain: `@` or an identifier, then dots and identifiers. -/
def parseChain : List Token → Option (List GoString)
  | Token.current :: rest => parseTail rest
  | Token.field name :: rest => (parseTail rest).map (fun keys => name :: keys)
  | _ => none

/-- The chain of keys an expression denotes: `none` when the expression is not embedded, an
error when its tokens do not form a chain, which the parser rejects. -/
def readChain (expr : GoString) : Option (Except GoString (List GoString)) :=
  match tokenize ((toBytes expr).length + 1) ((toBytes expr).map UInt8.toNat) with
  | none => none
  | some (Except.error err) => some (Except.error err)
  | some (Except.ok tokens) =>
    match parseChain tokens with
    | some keys => some (Except.ok keys)
    | none => some (Except.error "SyntaxError")

/-- The interpreter on a field node: `m[key]` on a map, `nil` on every other value. -/
def stepField (v : JsonValue) (key : GoString) : JsonValue :=
  match v with
  | JsonValue.object m => mapIndex m key
  | _ => JsonValue.null

/-- The call `jmespath.Search(expr, data)` for an expression that is a chain of keys, such as
`a`, `"a b"`, `a.b`, `@.a` or `a . b`: the interpreter starts at the document and takes one
field after the other. The result is `none` when the expression is not embedded. -/
def chainResult (expr : GoString) (data : Option JsonMap) :
    Option (Except GoString JsonValue) :=
  match readChain expr with
  | none => none
  | some (Except.error err) => some (Except.error err)
  | some (Except.ok keys) =>
    some (Except.ok (keys.foldl stepField (JsonValue.object (data.getD []))))

/-- The call `jmespath.Search("keys(@)[0]", data)`: the function `keys` collects the keys of
the map in the order a `range` loop visits them, here fixed by `order`, and the index takes the
first of them; on a map without keys the index yields `nil`. -/
def keysFirst (order : List Nat) (data : Option JsonMap) : JsonValue :=
  match rangeOrder order (data.getD []) with
  | [] => JsonValue.null
  | (key, _) :: _ => JsonValue.string key

end Jmes

/-- A query evaluator for the examples: `jmespath.Search` on the expression `keys(@)[0]`,
where `order` fixes the iteration order inside the library, and on chains of keys. Other
expressions are not embedded; this function answers them with an error, and no theorem relies
on that answer. -/
def librarySearch (order : List Nat) (expr : GoString) (data : Option JsonMap) :
    Except GoString JsonValue :=
  if expr = "keys(@)[0]" then Except.ok (Jmes.keysFirst order data)
  else
    match Jmes.chainResult expr data with
    | some result => result
    | none => Except.error "SyntaxError"

/-! ## The descriptor model -/

/-- Modelled from the spec: the declaration of `JMESPathEntry` is not part of
`secret_value.go`. A query entry holds a path expression and the intended alias of its
result. -/
structure JMESPathEntry where
  Path : GoString
  ObjectAlias : GoString
deriving DecidableEq, Repr

/-- Modelled from the spec: the declaration of `SecretDescriptor` is not part of
`secret_value.go`. These are the fields the spec lists, which are also the fields
`getJsonSecrets` reads and writes. -/
structure SecretDescriptor where
  ObjectName : GoString
  ObjectAlias : GoString
  ObjectType : GoString
  SyncAllKeys : Bool
  JMESPath : List JMESPathEntry
  translate : GoString
  mountDir : GoString
deriving DecidableEq, Repr

/-- Modelled from the spec: `getJmesEntrySecretDescriptor` is declared outside
`secret_value.go`. The derived descriptor copies `ObjectName`, `ObjectType`, `translate` and
`mountDir` from the parent and takes `ObjectAlias` from the query entry; the fields the spec
does not mention are left at their zero values. -/
def SecretDescriptor.getJmesEntrySecretDescriptor (p : SecretDescriptor)
    (j : JMESPathEntry) : SecretDescriptor :=
  { ObjectName := p.ObjectName
    ObjectAlias := j.ObjectAlias
    ObjectType := p.ObjectType
    SyncAllKeys := false
    JMESPath := []
    translate := p.translate
    mountDir := p.mountDir }

/-! ## `secret_value.go` -/

/-- The struct `SecretValue`: the contents of the secret and the descriptor it was fetched
under. -/
structure SecretValue where
  Value : Bytes
  Descriptor : SecretDescriptor
deriving DecidableEq, Repr

/-- The pair `(s []*SecretValue, e error)` a call returns: `s` is `none` for the `nil` slice,
`e` is `none` for the `nil` error and otherwise the message of the error. -/
structure Returned where
  s : Option (List SecretValue)
  e : Option GoString
deriving DecidableEq, Repr

/-- The comparison `v == nil` on an `interface{}`. -/
def JsonValue.isNil : JsonValue → Bool
  | JsonValue.null => true
  | _ => false

/-- The type assertion `s, ok := v.(string)`: the string and `true`, or the empty string
and `false`. -/
def JsonValue.assertString : JsonValue → GoString × Bool
  | JsonValue.string s => (s, true)
  | _ => ("", false)

/-- The body of the loop `for key, value := range data` of `getJsonSecrets`: the derived
secret for one entry of the map. -/
def syncAllKeysSecret (p : SecretValue) (key : GoString) (value : JsonValue) : SecretValue :=
  let valueAsString := value.assertString.1
  let descriptor : SecretDescriptor :=
    { ObjectName := p.Descriptor.ObjectName
      ObjectAlias := key
      ObjectType := p.Descriptor.ObjectType
      SyncAllKeys := false
      JMESPath := []
      translate := p.Descriptor.translate
      mountDir := p.Descriptor.mountDir }
  { Value := toBytes valueAsString, Descriptor := descriptor }

/-- The loop `for key, value := range data` of `getJsonSecrets`, run over the entries in the
order they are visited, appending to `jsonValues`. -/
def syncAllKeysLoop (p : SecretValue) :
    List (GoString × JsonValue) → List SecretValue → List SecretValue
  | [], jsonValues => jsonValues
  | (key, value) :: rest, jsonValues =>
    syncAllKeysLoop p rest (jsonValues ++ [syncAllKeysSecret p key value])

/-- The loop `for _, jmesPathEntry := range p.Descriptor.JMESPath` of `getJsonSecrets` with
its three early returns, run over the remaining entries, appending to `jsonValues`. -/
def jmesPathLoop (rt : Runtime) (p : SecretValue) (data : Option JsonMap) :
    List JMESPathEntry → List SecretValue → Returned
  | [], jsonValues => { s := some jsonValues, e := none }
  | jmesPathEntry :: rest, jsonValues =>
    match rt.search jmesPathEntry.Path data with
    | Except.error _ =>
      { s := none, e := some ("Invalid JMES Path: " ++ jmesPathEntry.Path ++ ".") }
    | Except.ok jsonSecret =>
      if jsonSecret.isNil then
        { s := none
          e := some ("JMES Path - " ++ jmesPathEntry.Path ++ " for object alias - " ++
            jmesPathEntry.ObjectAlias ++ " does not point to a valid object.") }
      else if jsonSecret.assertString.2 = false then
        { s := none
          e := some ("Invalid JMES search result type for path:" ++ jmesPathEntry.Path ++
            ". Only string is allowed.") }
      else
        let descriptor := p.Descriptor.getJmesEntrySecretDescriptor jmesPathEntry
        let secretValue : SecretValue :=
          { Value := toBytes jsonSecret.assertString.1, Descriptor := descriptor }
        jmesPathLoop rt p data rest (jsonValues ++ [secretValue])

/-- The method `getJsonSecrets`: decodes the value as a JSON object, then either derives one
secret per key of the map (`SyncAllKeys`) or one per query entry (the call to `klog.Infof`
writes a log line naming `ObjectName` and does not influence the result). -/
def SecretValue.getJsonSecrets (rt : Runtime) (p : SecretValue) : Returned :=
  match jsonUnmarshal p.Value with
  | Unmarshalled.failed =>
    { s := none
      e := some ("Invalid JSON used with jmesPath in secret: " ++ p.Descriptor.ObjectName ++ ".") }
  | Unmarshalled.ok data =>
    if p.Descriptor.SyncAllKeys then
      { s := some (syncAllKeysLoop p (rangeOrder rt.order (data.getD [])) []), e := none }
    else jmesPathLoop rt p data p.Descriptor.JMESPath []

/-- The method `String`: the text a `SecretValue` is printed as. -/
def SecretValue.String (_p : SecretValue) : GoString := "<REDACTED>"

/-! ## The failure of one query entry, in the words of the spec -/

/-- The error one query entry produces on its own, following the spec: a path that cannot be
evaluated is an `InvalidQuery`, a path with no result a `QueryNotFound`, a result other than a
string an `UnsupportedResultType`; an entry that resolves to a string produces none. -/
def entryError (rt : Runtime) (data : Option JsonMap) (entry : JMESPathEntry) :
    Option GoString :=
  match rt.search entry.Path data with
  | Except.error _ => some ("Invalid JMES Path: " ++ entry.Path ++ ".")
  | Except.ok JsonValue.null =>
    some ("JMES Path - " ++ entry.Path ++ " for object alias - " ++ entry.ObjectAlias ++
      " does not point to a valid object.")
  | Except.ok (JsonValue.string _) => none
  | Except.ok _ =>
    some ("Invalid JMES search result type for path:" ++ entry.Path ++
      ". Only string is allowed.")

/-! ## Inputs of the examples -/

/-- A runtime for the examples: bare identifier queries, and an iteration order that visits
the second entry of a map first. -/
def exampleRuntime : Runtime := { search := fieldSearch, order := [1] }

/-- A descriptor in sync-all-keys mode. -/
def syncDescriptor : SecretDescriptor :=
  { ObjectName := "db-creds"
    ObjectAlias := ""
    ObjectType := "secretsmanager"
    SyncAllKeys := true
    JMESPath := []
    translate := "_"
    mountDir := "/mnt/secrets" }

/-- A descriptor in path mode with the given query entries. -/
def pathDescriptor (entries : List JMESPathEntry) : SecretDescriptor :=
  { ObjectName := "db-creds"
    ObjectAlias := ""
    ObjectType := "secretsmanager"
    SyncAllKeys := false
    JMESPath := entries
    translate := "_"
    mountDir := "/mnt/secrets" }

/-- The bytes of the JSON text `{"a":"1","b":2}`. -/
def mixedObject : Bytes := toBytes "\x7b\"a\":\"1\",\"b\":2\x7d"

/-- The map the text `{"a":"1","b":2}` decodes to. -/
def mixedMap : JsonMap := [("a", JsonValue.string "1"), ("b", JsonValue.number "2")]

/-- The bytes of the JSON text `{"a":"1","b":"2"}`. -/
def stringObject : Bytes := toBytes "\x7b\"a\":\"1\",\"b\":\"2\"\x7d"

/-- The map the text `{"a":"1","b":"2"}` decodes to. -/
def stringMap : JsonMap := [("a", JsonValue.string "1"), ("b", JsonValue.string "2")]

/-- The bytes of the JSON text `{"a":"1"}`. -/
def singleObject : Bytes := toBytes "\x7b\"a\":\"1\"\x7d"

/-- The bytes of the JSON text `{"a":1}`. -/
def numberObject : Bytes := toBytes "\x7b\"a\":1\x7d"

/-- A descriptor in sync-all-keys mode that also lists query entries: one that is not a
well-formed expression, one for an absent key and one for a key holding a number. -/
def syncDescriptorWithEntries : SecretDescriptor :=
  { ObjectName := "db-creds"
    ObjectAlias := ""
    ObjectType := "secretsmanager"
    SyncAllKeys := true
    JMESPath := [⟨"a[", "x"⟩, ⟨"missing", "m"⟩, ⟨"b", "y"⟩]
    translate := "_"
    mountDir := "/mnt/secrets" }

/-- The bytes of the JSON text `{}`. -/
def emptyObject : Bytes := toBytes "\x7b\x7d"

/-- The bytes of the JSON text `{"a":null}`. -/
def nullValueObject : Bytes := toBytes "\x7b\"a\":null\x7d"

/-- The bytes of the JSON text `{"a":""}`. -/
def emptyStringObject : Bytes := toBytes "\x7b\"a\":\"\"\x7d"

/-- The bytes of the JSON text `{"a":"2","b":true}`. -/
def otherMixedObject : Bytes := toBytes "\x7b\"a\":\"2\",\"b\":true\x7d"

/-- The map the text `{"a":"2","b":true}` decodes to. -/
def otherMixedMap : JsonMap := [("a", JsonValue.string "2"), ("b", JsonValue.bool true)]

/-- The bytes of the JSON text `{"db":{"pass word":null}}`. -/
def nestedNullObject : Bytes := toBytes "\x7b\"db\":\x7b\"pass word\":null\x7d\x7d"

/-- The bytes of the JSON text `{"db":{}}`. -/
def nestedEmptyObject : Bytes := toBytes "\x7b\"db\":\x7b\x7d\x7d"

/-! ## The kinds of failure of a query entry, in the words of the spec -/

/-- The kinds of failure of a query entry in the error taxonomy of the spec. -/
inductive EntryFailure where
  | invalidQuery
  | queryNotFound
  | unsupportedResultType
deriving DecidableEq, Repr

/-- The kind of failure of one query entry, following the spec: a path that cannot be
evaluated is an `InvalidQuery`, a path with no result a `QueryNotFound`, a result other than a
string an `UnsupportedResultType`; an entry that resolves to a string has none. -/
def entryFailure (rt : Runtime) (data : Option JsonMap) (entry : JMESPathEntry) :
    Option EntryFailure :=
  match rt.search entry.Path data with
  | Except.error _ => some EntryFailure.invalidQuery
  | Except.ok JsonValue.null => some EntryFailure.queryNotFound
  | Except.ok (JsonValue.string _) => none
  | Except.ok _ => some EntryFailure.unsupportedResultType

/-- The message of a failure of the given kind at the given entry: a fixed template filled
with the path of the entry and, for `QueryNotFound`, its alias. -/
def EntryFailure.message : EntryFailure → JMESPathEntry → GoString
  | EntryFailure.invalidQuery, entry => "Invalid JMES Path: " ++ entry.Path ++ "."
  | EntryFailure.queryNotFound, entry =>
    "JMES Path - " ++ entry.Path ++ " for object alias - " ++ entry.ObjectAlias ++
      " does not point to a valid object."
  | EntryFailure.unsupportedResultType, entry =>
    "Invalid JMES search result type for path:" ++ entry.Path ++ ". Only string is allowed."

/-! ## Lemmas on maps and on the decoder -/

theorem mem_keys_mapInsert (m : JsonMap) (k : GoString) (v : JsonValue) (x : GoString) :
    x ∈ (mapInsert m k v).map Prod.fst ↔ x = k ∨ x ∈ m.map Prod.fst := by
  induction m with
  | nil => simp [mapInsert]
  | cons kv rest ih =>
    obtain ⟨k0, v0⟩ := kv
    by_cases h : k0 = k
    · subst h
      simp [mapInsert]
    · simp only [mapInsert, if_neg h, List.map_cons, List.mem_cons, ih]
      tauto

theorem nodup_keys_mapInsert (m : JsonMap) (k : GoString) (v : JsonValue)
    (h : (m.map Prod.fst).Nodup) : ((mapInsert m k v).map Prod.fst).Nodup := by
  induction m with
  | nil => simp [mapInsert]
  | cons kv rest ih =>
    obtain ⟨k0, v0⟩ := kv
    simp only [List.map_cons, List.nodup_cons] at h
    by_cases hk : k0 = k
    · subst hk
      simpa [mapInsert] using h
    · simp only [mapInsert, if_neg hk, List.map_cons, List.nodup_cons, mem_keys_mapInsert]
      exact ⟨fun hx => hx.elim hk h.1, ih h.2⟩

theorem readMembers_nodup (fuel : Nat) :
    ∀ (depth : Nat) (input : List Nat) (acc : JsonMap) (v : JsonValue) (rest : List Nat),
      (acc.map Prod.fst).Nodup →
      Json.readMembers fuel depth input acc = some (v, rest) →
      ∃ m, v = JsonValue.object m ∧ (m.map Prod.fst).Nodup := by
  induction fuel with
  | zero => intro depth input acc v rest _ h; simp [Json.readMembers] at h
  | succ fuel ih =>
    intro depth input acc v rest hacc h
    cases input with
    | nil => simp [Json.readMembers] at h
    | cons c cs =>
      simp only [Json.readMembers] at h
      split at h
      · split at h
        · cases h
        · split at h
          · split at h
            · cases h
            · split at h
              · exact ih _ _ _ _ _ (nodup_keys_mapInsert _ _ _ hacc) h
              · simp only [Option.some.injEq, Prod.mk.injEq] at h
                exact ⟨_, h.1.symm, nodup_keys_mapInsert _ _ _ hacc⟩
              · cases h
          · cases h
      · cases h

theorem readElems_array (fuel : Nat) :
    ∀ (depth : Nat) (input : List Nat) (acc : List JsonValue) (v : JsonValue) (rest : List Nat),
      Json.readElems fuel depth input acc = some (v, rest) → ∃ xs, v = JsonValue.array xs := by
  induction fuel with
  | zero => intro depth input acc v rest h; simp [Json.readElems] at h
  | succ fuel ih =>
    intro depth input acc v rest h
    simp only [Json.readElems] at h
    split at h
    · cases h
    · split at h
      · exact ih _ _ _ _ _ h
      · simp only [Option.some.injEq, Prod.mk.injEq] at h
        exact ⟨_, h.1.symm⟩
      · cases h

theorem readValue_object_nodup (fuel depth : Nat) (input : List Nat) (m : JsonMap)
    (rest : List Nat) (h : Json.readValue fuel depth input = some (JsonValue.object m, rest)) :
    (m.map Prod.fst).Nodup := by
  cases fuel with
  | zero => simp [Json.readValue] at h
  | succ fuel =>
    cases input with
    | nil => simp [Json.readValue] at h
    | cons c cs =>
      simp only [Json.readValue] at h
      split at h
      · split at h
        · cases h
        · split at h
          · simp only [Option.some.injEq, Prod.mk.injEq, JsonValue.object.injEq] at h
            rw [← h.1]
            exact List.nodup_nil
          · obtain ⟨m1, hm1, hnd⟩ := readMembers_nodup _ _ _ [] _ _ List.nodup_nil h
            cases hm1
            exact hnd
      · split at h
        · split at h
          · cases h
          · split at h
            · cases h
            · obtain ⟨xs, hxs⟩ := readElems_array _ _ _ _ _ _ h
              cases hxs
        · split at h
          · split at h <;> cases h
          · split at h
            · split at h <;> cases h
            · split at h
              · split at h <;> cases h
              · split at h
                · split at h <;> cases h
                · split at h
                  · split at h <;> cases h
                  · cases h

/-- The map `json.Unmarshal` fills has pairwise distinct keys. -/
theorem jsonUnmarshal_nodup (value : Bytes) (m : JsonMap)
    (h : jsonUnmarshal value = Unmarshalled.ok (some m)) : (m.map Prod.fst).Nodup := by
  unfold jsonUnmarshal at h
  split at h
  · cases h
  · rename_i members hdoc
    simp only [Unmarshalled.ok.injEq, Option.some.injEq] at h
    subst h
    unfold Json.readDocument at hdoc
    split at hdoc
    · rename_i v rest hv
      split at hdoc
      · simp only [Option.some.injEq] at hdoc
        subst hdoc
        exact readValue_object_nodup _ _ _ _ _ hv
      · cases hdoc
    · cases hdoc
  · cases h
  · cases h

/-! ## The fuel of the decoder

The decoder gives the same result for every amount of fuel from twice the length of the input
onwards, so the amount `readDocument` passes never cuts a document short. -/

theorem read_fuel_succ (f : Nat) :
    (∀ d i r, Json.readValue f d i = some r → Json.readValue (f + 1) d i = some r) ∧
    (∀ d i acc r, Json.readElems f d i acc = some r →
      Json.readElems (f + 1) d i acc = some r) ∧
    (∀ d i acc r, Json.readMembers f d i acc = some r →
      Json.readMembers (f + 1) d i acc = some r) := by
  induction f with
  | zero =>
    refine ⟨fun d i r h => ?_, fun d i acc r h => ?_, fun d i acc r h => ?_⟩
    · simp [Json.readValue] at h
    · simp [Json.readElems] at h
    · simp [Json.readMembers] at h
  | succ f ih =>
    obtain ⟨ihV, ihE, ihM⟩ := ih
    refine ⟨?_, ?_, ?_⟩
    · intro d i r h
      cases i with
      | nil => simp [Json.readValue] at h
      | cons c cs =>
        simp only [Json.readValue] at h ⊢
        revert h
        split
        · split
          · exact id
          · split
            · exact id
            · exact ihM _ _ _ _
        · split
          · split
            · exact id
            · split
              · exact id
              · exact ihE _ _ _ _
          · exact id
    · intro d i acc r h
      simp only [Json.readElems] at h ⊢
      cases hv : Json.readValue f d i with
      | none => simp [hv] at h
      | some vr =>
        rw [hv] at h
        rw [ihV _ _ _ hv]
        revert h
        simp only []
        split
        · exact ihE _ _ _ _
        · exact id
        · exact id
    · intro d i acc r h
      cases i with
      | nil => simp [Json.readMembers] at h
      | cons c cs =>
        simp only [Json.readMembers] at h ⊢
        revert h
        split
        · split
          · exact id
          · split
            · cases hv : Json.readValue f d _ with
              | none => simp
              | some vr =>
                rw [ihV _ _ _ hv]
                simp only []
                split
                · exact ihM _ _ _ _
                · exact id
                · exact id
            · exact id
        · exact id

theorem readValue_fuel_mono {f f' d : Nat} {i : List Nat} {r : JsonValue × List Nat}
    (h : Json.readValue f d i = some r) (hle : f ≤ f') : Json.readValue f' d i = some r := by
  induction hle with
  | refl => exact h
  | step _ ih => exact (read_fuel_succ _).1 _ _ _ ih

theorem readElems_fuel_mono {f f' d : Nat} {i : List Nat} {acc : List JsonValue}
    {r : JsonValue × List Nat} (h : Json.readElems f d i acc = some r) (hle : f ≤ f') :
    Json.readElems f' d i acc = some r := by
  induction hle with
  | refl => exact h
  | step _ ih => exact (read_fuel_succ _).2.1 _ _ _ _ ih

theorem readMembers_fuel_mono {f f' d : Nat} {i : List Nat} {acc : JsonMap}
    {r : JsonValue × List Nat} (h : Json.readMembers f d i acc = some r) (hle : f ≤ f') :
    Json.readMembers f' d i acc = some r := by
  induction hle with
  | refl => exact h
  | step _ ih => exact (read_fuel_succ _).2.2 _ _ _ _ ih

theorem skipSpace_length_le (i : List Nat) : (Json.skipSpace i).length ≤ i.length := by
  induction i with
  | nil => simp [Json.skipSpace]
  | cons c cs ih =>
    simp only [Json.skipSpace]
    split
    · exact Nat.le_succ_of_le ih
    · exact Nat.le_refl _

theorem consChar_eq_some {ch : Char} {o : Option (List Char × List Nat)} {chars : List Char}
    {rest : List Nat} (h : Json.consChar ch o = some (chars, rest)) :
    ∃ tail, o = some (tail, rest) := by
  cases o with
  | none => simp [Json.consChar] at h
  | some pr =>
    obtain ⟨tail, rest1⟩ := pr
    simp only [Json.consChar, Option.some.injEq, Prod.mk.injEq] at h
    exact ⟨tail, by rw [h.2]⟩

theorem readString_length_lt (f : Nat) :
    ∀ (i : List Nat) (chars : List Char) (rest : List Nat),
      Json.readString f i = some (chars, rest) → rest.length < i.length := by
  induction f with
  | zero => intro i chars rest h; simp [Json.readString] at h
  | succ f ih =>
    intro i chars rest h
    cases i with
    | nil => simp [Json.readString] at h
    | cons c cs =>
      simp only [Json.readString] at h
      have step : ∀ (ch : Char) (next : List Nat), next.length ≤ (c :: cs).length →
          Json.consChar ch (Json.readString f next) = some (chars, rest) →
          rest.length < (c :: cs).length := by
        intro ch next hnext hcons
        obtain ⟨tail, htail⟩ := consChar_eq_some hcons
        exact Nat.lt_of_lt_of_le (ih _ _ _ htail) hnext
      split at h
      · simp only [Option.some.injEq, Prod.mk.injEq] at h
        rw [← h.2]
        exact Nat.lt_succ_self _
      · split at h
        · split at h
          · cases h
          · rename_i e es
            split at h
            · split at h
              · cases h
              · have h4 : (es.drop 4).length ≤ (c :: e :: es).length := by
                  simp only [List.length_drop, List.length_cons]; omega
                have h10 : ((es.drop 4).drop 6).length ≤ (c :: e :: es).length := by
                  simp only [List.length_drop, List.length_cons]; omega
                split at h
                · split at h
                  · split at h
                    · exact step _ _ h10 h
                    · exact step _ _ h4 h
                  · exact step _ _ h4 h
                · exact step _ _ h4 h
            · split at h
              · exact step _ _ (by simp only [List.length_cons]; omega) h
              · cases h
        · split at h
          · cases h
          · split at h
            · exact step _ _ (by simp only [List.length_cons]; omega) h
            · exact step _ _ (by simp only [List.length_drop, List.length_cons]; omega) h

theorem readString_fuel_succ (f : Nat) :
    ∀ (i : List Nat) (r : List Char × List Nat),
      Json.readString f i = some r → Json.readString (f + 1) i = some r := by
  induction f with
  | zero => intro i r h; simp [Json.readString] at h
  | succ f ih =>
    intro i r h
    cases i with
    | nil => simp [Json.readString] at h
    | cons c cs =>
      obtain ⟨chars, rest⟩ := r
      simp only [Json.readString] at h ⊢
      have step : ∀ (ch : Char) (next : List Nat),
          Json.consChar ch (Json.readString f next) = some (chars, rest) →
          Json.consChar ch (Json.readString (f + 1) next) = some (chars, rest) := by
        intro ch next hcons
        obtain ⟨tail, htail⟩ := consChar_eq_some hcons
        rw [htail] at hcons
        rw [ih _ _ htail]
        exact hcons
      revert h
      split
      · exact id
      · split
        · split
          · exact id
          · split
            · split
              · exact id
              · split
                · split
                  · split
                    · exact step _ _
                    · exact step _ _
                  · exact step _ _
                · exact step _ _
            · split
              · exact step _ _
              · exact id
        · split
          · exact id
          · split
            · exact step _ _
            · exact step _ _

theorem readString_fuel_mono {f f' : Nat} {i : List Nat} {r : List Char × List Nat}
    (h : Json.readString f i = some r) (hle : f ≤ f') : Json.readString f' i = some r := by
  induction hle with
  | refl => exact h
  | step _ ih => exact readString_fuel_succ _ _ _ ih

theorem decodeRune_width_pos (c : Nat) (cs : List Nat) : 1 ≤ (Json.decodeRune (c :: cs)).2 := by
  simp only [Json.decodeRune]
  repeat' split
  all_goals simp

theorem readString_fuel_bound (f : Nat) :
    ∀ (i : List Nat) (chars : List Char) (rest : List Nat),
      Json.readString f i = some (chars, rest) →
      Json.readString (i.length - rest.length) i = some (chars, rest) := by
  induction f with
  | zero => intro i chars rest h; simp [Json.readString] at h
  | succ f ih =>
    intro i chars rest h
    have hlt := readString_length_lt _ _ _ _ h
    obtain ⟨k, hk⟩ : ∃ k, i.length - rest.length = k + 1 :=
      ⟨i.length - rest.length - 1, by omega⟩
    rw [hk]
    cases i with
    | nil => simp [Json.readString] at h
    | cons c cs =>
      simp only [Json.readString] at h ⊢
      have step : ∀ (ch : Char) (next : List Nat), next.length < (c :: cs).length →
          Json.consChar ch (Json.readString f next) = some (chars, rest) →
          Json.consChar ch (Json.readString k next) = some (chars, rest) := by
        intro ch next hnext hcons
        obtain ⟨tail, htail⟩ := consChar_eq_some hcons
        have hc := readString_length_lt _ _ _ _ htail
        rw [htail] at hcons
        rw [readString_fuel_mono (ih _ _ _ htail) (by omega)]
        exact hcons
      have hw := decodeRune_width_pos c cs
      revert h
      split
      · exact id
      · split
        · split
          · exact id
          · rename_i e es
            have h4 : (es.drop 4).length < (c :: e :: es).length := by
              simp only [List.length_drop, List.length_cons]; omega
            have h10 : ((es.drop 4).drop 6).length < (c :: e :: es).length := by
              simp only [List.length_drop, List.length_cons]; omega
            split
            · split
              · exact id
              · split
                · split
                  · split
                    · exact step _ _ h10
                    · exact step _ _ h4
                  · exact step _ _ h4
                · exact step _ _ h4
            · split
              · exact step _ _ (by simp only [List.length_cons]; omega)
              · exact id
        · split
          · exact id
          · split
            · exact step _ _ (by simp only [List.length_cons]; omega)
            · exact step _ _ (by simp only [List.length_drop, List.length_cons]; omega)

/-- The result of reading a string does not depend on the fuel once the fuel is at least the
length of the input. -/
theorem readString_fuel_independent (f : Nat) (i : List Nat) (hf : i.length ≤ f) :
    Json.readString f i = Json.readString (i.length + 1) i := by
  have key : ∀ g r, Json.readString g i = some r →
      ∀ g', i.length ≤ g' → Json.readString g' i = some r := by
    intro g r hr g' hg'
    obtain ⟨chars, rest⟩ := r
    exact readString_fuel_mono (readString_fuel_bound g _ _ _ hr) (by omega)
  cases h1 : Json.readString f i with
  | some r => exact (key f r h1 _ (by omega)).symm
  | none =>
    cases h2 : Json.readString (i.length + 1) i with
    | none => rfl
    | some r =>
      rw [key _ r h2 f hf] at h1
      cases h1

theorem spanDigits_length_le (i : List Nat) : (Json.spanDigits i).2.length ≤ i.length := by
  induction i with
  | nil => simp [Json.spanDigits]
  | cons c cs ih =>
    simp only [Json.spanDigits]
    split
    · exact Nat.le_succ_of_le ih
    · exact Nat.le_refl _

theorem readInt_length_lt {i ds rest : List Nat} (h : Json.readInt i = some (ds, rest)) :
    rest.length < i.length := by
  cases i with
  | nil => simp [Json.readInt] at h
  | cons c cs =>
    simp only [Json.readInt] at h
    split at h
    · simp only [Option.some.injEq, Prod.mk.injEq] at h
      rw [← h.2]
      exact Nat.lt_succ_self _
    · split at h
      · simp only [Option.some.injEq, Prod.mk.injEq] at h
        rw [← h.2]
        exact Nat.lt_succ_of_le (spanDigits_length_le cs)
      · cases h

theorem readFrac_length_le {i ds rest : List Nat} (h : Json.readFrac i = some (ds, rest)) :
    rest.length ≤ i.length := by
  unfold Json.readFrac at h
  split at h
  · rename_i cs
    have hle := spanDigits_length_le cs
    split at h
    · cases h
    · rename_i ds1 rest1 _ heq
      simp only [Option.some.injEq, Prod.mk.injEq] at h
      rw [heq] at hle
      rw [← h.2]
      exact Nat.le_succ_of_le hle
  · simp only [Option.some.injEq, Prod.mk.injEq] at h
    rw [← h.2]

theorem readExp_length_le {i ds rest : List Nat} {neg : Bool}
    (h : Json.readExp i = some (neg, ds, rest)) : rest.length ≤ i.length := by
  cases i with
  | nil =>
    simp only [Json.readExp, Option.some.injEq, Prod.mk.injEq] at h
    rw [← h.2.2]
  | cons c cs =>
    simp only [Json.readExp] at h
    split at h
    · split at h
      · cases h
      · rename_i ds1 rest1 _ heq
        simp only [Option.some.injEq, Prod.mk.injEq] at h
        have hle := spanDigits_length_le (if cs.head? = some 45 ∨ cs.head? = some 43
          then cs.drop 1 else cs)
        rw [heq] at hle
        rw [← h.2.2]
        have hbody : (if cs.head? = some 45 ∨ cs.head? = some 43
            then cs.drop 1 else cs).length ≤ cs.length := by
          split
          · simp only [List.length_drop]; omega
          · exact Nat.le_refl _
        simp only [List.length_cons]
        simp only at hle
        omega
    · simp only [Option.some.injEq, Prod.mk.injEq] at h
      rw [← h.2.2]

theorem readNumber_length_lt {i rest : List Nat} {n : Json.NumberLit}
    (h : Json.readNumber i = some (n, rest)) : rest.length < i.length := by
  unfold Json.readNumber at h
  simp only at h
  split at h
  · cases h
  · rename_i int r1 hint
    split at h
    · cases h
    · rename_i frac r2 hfrac
      split at h
      · cases h
      · rename_i expNeg exp r3 hexp
        simp only [Option.some.injEq, Prod.mk.injEq] at h
        have h1 := readInt_length_lt hint
        have h2 := readFrac_length_le hfrac
        have h3 := readExp_length_le hexp
        have hbody : (if i.head? = some 45 then i.drop 1 else i).length ≤ i.length := by
          split
          · simp only [List.length_drop]; omega
          · exact Nat.le_refl _
        rw [← h.2]
        omega

theorem readName_length_le {name i rest : List Nat} (h : Json.readName name i = some rest) :
    rest.length ≤ i.length := by
  unfold Json.readName at h
  split at h
  · simp only [Option.some.injEq] at h
    rw [← h, List.length_drop]
    omega
  · cases h

theorem read_consumes (f : Nat) :
    (∀ d i v rest, Json.readValue f d i = some (v, rest) → rest.length < i.length) ∧
    (∀ d i acc v rest, Json.readElems f d i acc = some (v, rest) → rest.length < i.length) ∧
    (∀ d i acc v rest, Json.readMembers f d i acc = some (v, rest) →
      rest.length < i.length) := by
  induction f with
  | zero =>
    refine ⟨fun d i v rest h => ?_, fun d i acc v rest h => ?_, fun d i acc v rest h => ?_⟩
    · simp [Json.readValue] at h
    · simp [Json.readElems] at h
    · simp [Json.readMembers] at h
  | succ f ih =>
    obtain ⟨ihV, ihE, ihM⟩ := ih
    refine ⟨?_, ?_, ?_⟩
    · intro d i v rest h
      cases i with
      | nil => simp [Json.readValue] at h
      | cons c cs =>
        simp only [Json.readValue] at h
        have hsk := skipSpace_length_le cs
        simp only [List.length_cons]
        split at h
        · split at h
          · cases h
          · split at h
            · rename_i rest1 heq
              simp only [Option.some.injEq, Prod.mk.injEq] at h
              rw [heq] at hsk
              rw [← h.2]
              simp only [List.length_cons] at hsk
              omega
            · have := ihM _ _ _ _ _ h
              omega
        · split at h
          · split at h
            · cases h
            · split at h
              · rename_i rest1 heq
                simp only [Option.some.injEq, Prod.mk.injEq] at h
                rw [heq] at hsk
                rw [← h.2]
                simp only [List.length_cons] at hsk
                omega
              · have := ihE _ _ _ _ _ h
                omega
          · split at h
            · split at h
              · rename_i chars rest1 hstr
                simp only [Option.some.injEq, Prod.mk.injEq] at h
                have := readString_length_lt _ _ _ _ hstr
                rw [← h.2]
                omega
              · cases h
            · split at h
              · split at h
                · rename_i rest1 hname
                  simp only [Option.some.injEq, Prod.mk.injEq] at h
                  have := readName_length_le hname
                  rw [← h.2]
                  omega
                · cases h
              · split at h
                · split at h
                  · rename_i rest1 hname
                    simp only [Option.some.injEq, Prod.mk.injEq] at h
                    have := readName_length_le hname
                    rw [← h.2]
                    omega
                  · cases h
                · split at h
                  · split at h
                    · rename_i rest1 hname
                      simp only [Option.some.injEq, Prod.mk.injEq] at h
                      have := readName_length_le hname
                      rw [← h.2]
                      omega
                    · cases h
                  · split at h
                    · rename_i n rest1 hnum
                      split at h
                      · cases h
                      · simp only [Option.some.injEq, Prod.mk.injEq] at h
                        have := readNumber_length_lt hnum
                        rw [← h.2]
                        simpa only [List.length_cons] using this
                    · cases h
    · intro d i acc v rest h
      simp only [Json.readElems] at h
      split at h
      · cases h
      · rename_i v1 rest1 hv
        have h1 := ihV _ _ _ _ hv
        have hsk := skipSpace_length_le rest1
        split at h
        · rename_i rest2 heq
          have h2 := ihE _ _ _ _ _ h
          have hsk2 := skipSpace_length_le rest2
          rw [heq] at hsk
          simp only [List.length_cons] at hsk
          omega
        · rename_i rest2 heq
          simp only [Option.some.injEq, Prod.mk.injEq] at h
          rw [heq] at hsk
          simp only [List.length_cons] at hsk
          rw [← h.2]
          omega
        · cases h
    · intro d i acc v rest h
      cases i with
      | nil => simp [Json.readMembers] at h
      | cons c cs =>
        simp only [Json.readMembers] at h
        simp only [List.length_cons]
        split at h
        · split at h
          · cases h
          · rename_i chars rest0 hstr
            have h0 := readString_length_lt _ _ _ _ hstr
            have hsk0 := skipSpace_length_le rest0
            split at h
            · rename_i rest1 heq1
              rw [heq1] at hsk0
              simp only [List.length_cons] at hsk0
              have hsk1 := skipSpace_length_le rest1
              split at h
              · cases h
              · rename_i v1 rest2 hv
                have h2 := ihV _ _ _ _ hv
                have hsk2 := skipSpace_length_le rest2
                split at h
                · rename_i rest3 heq3
                  rw [heq3] at hsk2
                  simp only [List.length_cons] at hsk2
                  have hsk3 := skipSpace_length_le rest3
                  have h4 := ihM _ _ _ _ _ h
                  omega
                · rename_i rest3 heq3
                  rw [heq3] at hsk2
                  simp only [List.length_cons] at hsk2
                  simp only [Option.some.injEq, Prod.mk.injEq] at h
                  rw [← h.2]
                  omega
                · cases h
            · cases h
        · cases h

theorem read_fuel_bound (f : Nat) :
    (∀ d i v rest, Json.readValue f d i = some (v, rest) →
      Json.readValue (2 * (i.length - rest.length)) d i = some (v, rest)) ∧
    (∀ d i acc v rest, Json.readElems f d i acc = some (v, rest) →
      Json.readElems (2 * (i.length - rest.length)) d i acc = some (v, rest)) ∧
    (∀ d i acc v rest, Json.readMembers f d i acc = some (v, rest) →
      Json.readMembers (2 * (i.length - rest.length)) d i acc = some (v, rest)) := by
  induction f with
  | zero =>
    refine ⟨fun d i v rest h => ?_, fun d i acc v rest h => ?_, fun d i acc v rest h => ?_⟩
    · simp [Json.readValue] at h
    · simp [Json.readElems] at h
    · simp [Json.readMembers] at h
  | succ f ih =>
    obtain ⟨ihV, ihE, ihM⟩ := ih
    refine ⟨?_, ?_, ?_⟩
    · intro d i v rest h
      have hlt := (read_consumes (f + 1)).1 _ _ _ _ h
      obtain ⟨k, hk⟩ : ∃ k, 2 * (i.length - rest.length) = k + 1 :=
        ⟨2 * (i.length - rest.length) - 1, by omega⟩
      rw [hk]
      cases i with
      | nil => simp [Json.readValue] at h
      | cons c cs =>
        simp only [Json.readValue] at h ⊢
        simp only [List.length_cons] at hk
        have hsk := skipSpace_length_le cs
        revert h
        split
        · split
          · exact id
          · split
            · exact id
            · intro h
              have hc := (read_consumes f).2.2 _ _ _ _ _ h
              exact readMembers_fuel_mono (ihM _ _ _ _ _ h) (by omega)
        · split
          · split
            · exact id
            · split
              · exact id
              · intro h
                have hc := (read_consumes f).2.1 _ _ _ _ _ h
                exact readElems_fuel_mono (ihE _ _ _ _ _ h) (by omega)
          · exact id
    · intro d i acc v rest h
      have hlt := (read_consumes (f + 1)).2.1 _ _ _ _ _ h
      obtain ⟨k, hk⟩ : ∃ k, 2 * (i.length - rest.length) = k + 1 :=
        ⟨2 * (i.length - rest.length) - 1, by omega⟩
      rw [hk]
      simp only [Json.readElems] at h ⊢
      cases hv : Json.readValue f d i with
      | none => simp [hv] at h
      | some vr =>
        obtain ⟨v1, rest1⟩ := vr
        rw [hv] at h
        simp only [] at h
        have hc1 := (read_consumes f).1 _ _ _ _ hv
        have hsk1 := skipSpace_length_le rest1
        have hrest : rest.length < rest1.length := by
          split at h
          · rename_i rest2 heq
            have hc2 := (read_consumes f).2.1 _ _ _ _ _ h
            have hsk2 := skipSpace_length_le rest2
            rw [heq] at hsk1
            simp only [List.length_cons] at hsk1
            omega
          · rename_i rest2 heq
            simp only [Option.some.injEq, Prod.mk.injEq] at h
            rw [heq] at hsk1
            simp only [List.length_cons] at hsk1
            rw [← h.2]
            omega
          · cases h
        rw [readValue_fuel_mono (ihV _ _ _ _ hv) (by omega : 2 * (i.length - rest1.length) ≤ k)]
        simp only []
        revert h
        split
        · rename_i rest2 heq
          intro h
          have hc2 := (read_consumes f).2.1 _ _ _ _ _ h
          have hsk2 := skipSpace_length_le rest2
          rw [heq] at hsk1
          simp only [List.length_cons] at hsk1
          exact readElems_fuel_mono (ihE _ _ _ _ _ h) (by omega)
        · exact id
        · exact id
    · intro d i acc v rest h
      have hlt := (read_consumes (f + 1)).2.2 _ _ _ _ _ h
      obtain ⟨k, hk⟩ : ∃ k, 2 * (i.length - rest.length) = k + 1 :=
        ⟨2 * (i.length - rest.length) - 1, by omega⟩
      rw [hk]
      cases i with
      | nil => simp [Json.readMembers] at h
      | cons c cs =>
        simp only [Json.readMembers] at h ⊢
        simp only [List.length_cons] at hk hlt
        revert h
        split
        · split
          · exact id
          · rename_i chars rest0 hstr
            have h0 := readString_length_lt _ _ _ _ hstr
            have hsk0 := skipSpace_length_le rest0
            split
            · rename_i rest1 heq1
              rw [heq1] at hsk0
              simp only [List.length_cons] at hsk0
              have hsk1 := skipSpace_length_le rest1
              cases hv : Json.readValue f d (Json.skipSpace rest1) with
              | none => simp
              | some vr =>
                obtain ⟨v1, rest2⟩ := vr
                simp only []
                intro h
                have hc1 := (read_consumes f).1 _ _ _ _ hv
                have hsk2 := skipSpace_length_le rest2
                have hrest : rest.length < rest2.length := by
                  split at h
                  · rename_i rest3 heq3
                    have hc3 := (read_consumes f).2.2 _ _ _ _ _ h
                    have hsk3 := skipSpace_length_le rest3
                    rw [heq3] at hsk2
                    simp only [List.length_cons] at hsk2
                    omega
                  · rename_i rest3 heq3
                    simp only [Option.some.injEq, Prod.mk.injEq] at h
                    rw [heq3] at hsk2
                    simp only [List.length_cons] at hsk2
                    rw [← h.2]
                    omega
                  · cases h
                rw [readValue_fuel_mono (ihV _ _ _ _ hv)
                  (by omega : 2 * ((Json.skipSpace rest1).length - rest2.length) ≤ k)]
                simp only []
                revert h
                split
                · rename_i rest3 heq3
                  intro h
                  have hc3 := (read_consumes f).2.2 _ _ _ _ _ h
                  have hsk3 := skipSpace_length_le rest3
                  rw [heq3] at hsk2
                  simp only [List.length_cons] at hsk2
                  exact readMembers_fuel_mono (ihM _ _ _ _ _ h) (by omega)
                · exact id
                · exact id
            · exact id
        · exact id

/-- The result of reading a value does not depend on the fuel once the fuel is at least twice
the length of the input. -/
theorem readValue_fuel_independent (f d : Nat) (i : List Nat) (hf : 2 * i.length ≤ f) :
    Json.readValue f d i = Json.readValue (2 * i.length + 2) d i := by
  have key : ∀ g, 2 * i.length ≤ g → ∀ r, Json.readValue g d i = some r →
      ∀ g', 2 * i.length ≤ g' → Json.readValue g' d i = some r := by
    intro g _ r hr g' hg'
    obtain ⟨v, rest⟩ := r
    exact readValue_fuel_mono ((read_fuel_bound g).1 _ _ _ _ hr) (by omega)
  cases h1 : Json.readValue f d i with
  | some r => exact (key f hf r h1 _ (by omega)).symm
  | none =>
    cases h2 : Json.readValue (2 * i.length + 2) d i with
    | none => rfl
    | some r =>
      rw [key _ (by omega) r h2 f hf] at h1
      cases h1

/-! ## Lemmas on the two loops -/

theorem mem_unique_of_nodup_keys (m : JsonMap) (h : (m.map Prod.fst).Nodup) (k : GoString)
    (v w : JsonValue) (hv : (k, v) ∈ m) (hw : (k, w) ∈ m) : v = w := by
  induction m with
  | nil => cases hv
  | cons kv rest ih =>
    simp only [List.map_cons, List.nodup_cons] at h
    have key_mem : ∀ u, (k, u) ∈ rest → k ∈ rest.map Prod.fst :=
      fun u hu => List.mem_map.mpr ⟨(k, u), hu, rfl⟩
    rcases List.mem_cons.mp hv with hv | hv <;> rcases List.mem_cons.mp hw with hw | hw
    · rw [← hv] at hw
      exact (Prod.mk.inj hw).2.symm
    · rw [← hv] at h
      exact absurd (key_mem w hw) h.1
    · rw [← hw] at h
      exact absurd (key_mem v hv) h.1
    · exact ih h.2 hv hw

theorem pickAt_perm {α : Type} (i : Nat) :
    ∀ (x : α) (xs : List α), ((pickAt i x xs).1 :: (pickAt i x xs).2).Perm (x :: xs) := by
  induction i with
  | zero => intro x xs; simp [pickAt]
  | succ i ih =>
    intro x xs
    cases xs with
    | nil => simp [pickAt]
    | cons y ys =>
      simp only [pickAt]
      exact (List.Perm.swap _ _ _).trans ((ih y ys).cons x)

theorem rangeOrder_perm {α : Type} (ks : List Nat) :
    ∀ xs : List α, (rangeOrder ks xs).Perm xs := by
  induction ks with
  | nil => intro xs; cases xs <;> simp [rangeOrder]
  | cons k ks ih =>
    intro xs
    cases xs with
    | nil => simp [rangeOrder]
    | cons x xs =>
      simp only [rangeOrder]
      exact ((ih _).cons _).trans (pickAt_perm _ x xs)

theorem pickAt_of_mem {α : Type} (y : α) (xs : List α) :
    ∀ x : α, y ∈ x :: xs → ∃ i, i ≤ xs.length ∧ (pickAt i x xs).1 = y := by
  induction xs with
  | nil =>
    intro x hy
    exact ⟨0, Nat.le_refl _, by simpa [pickAt] using (List.mem_singleton.mp hy).symm⟩
  | cons x1 rest ih =>
    intro x hy
    rcases List.mem_cons.mp hy with rfl | hy
    · exact ⟨0, Nat.zero_le _, rfl⟩
    · obtain ⟨i, hi, hpick⟩ := ih x1 hy
      exact ⟨i + 1, Nat.succ_le_succ hi, by simpa [pickAt] using hpick⟩

/-- Every order of the entries is the visiting order for some list of choices. -/
theorem rangeOrder_surjective {α : Type} (ys : List α) :
    ∀ xs : List α, ys.Perm xs → ∃ ks, rangeOrder ks xs = ys := by
  induction ys with
  | nil =>
    intro xs h
    rw [List.nil_perm.mp h]
    exact ⟨[], rfl⟩
  | cons y rest ih =>
    intro xs h
    cases xs with
    | nil => exact absurd h.eq_nil (List.cons_ne_nil _ _)
    | cons x xs =>
      obtain ⟨i, hi, hpick⟩ := pickAt_of_mem y xs x (h.subset (List.mem_cons_self _ _))
      have hrem : rest.Perm (pickAt i x xs).2 := by
        have h1 := (pickAt_perm i x xs).symm
        rw [hpick] at h1
        exact (h.trans h1).cons_inv
      obtain ⟨ks, hks⟩ := ih _ hrem
      refine ⟨i :: ks, ?_⟩
      simp only [rangeOrder, Nat.mod_eq_of_lt (Nat.lt_succ_of_le hi), hpick, hks]

theorem syncAllKeysLoop_eq (p : SecretValue) (entries : List (GoString × JsonValue)) :
    ∀ jsonValues : List SecretValue,
      syncAllKeysLoop p entries jsonValues =
        jsonValues ++ entries.map (fun kv => syncAllKeysSecret p kv.1 kv.2) := by
  induction entries with
  | nil => intro jsonValues; simp [syncAllKeysLoop]
  | cons kv rest ih =>
    intro jsonValues
    obtain ⟨key, value⟩ := kv
    simp [syncAllKeysLoop, ih]

theorem getJsonSecrets_sync (rt : Runtime) (p : SecretValue) (data : Option JsonMap)
    (hparse : jsonUnmarshal p.Value = Unmarshalled.ok data)
    (hsync : p.Descriptor.SyncAllKeys = true) :
    p.getJsonSecrets rt =
      { s := some ((rangeOrder rt.order (data.getD [])).map
          (fun kv => syncAllKeysSecret p kv.1 kv.2)), e := none } := by
  simp [SecretValue.getJsonSecrets, hparse, hsync, syncAllKeysLoop_eq]

theorem getJsonSecrets_paths (rt : Runtime) (p : SecretValue) (data : Option JsonMap)
    (hparse : jsonUnmarshal p.Value = Unmarshalled.ok data)
    (hsync : p.Descriptor.SyncAllKeys = false) :
    p.getJsonSecrets rt = jmesPathLoop rt p data p.Descriptor.JMESPath [] := by
  simp [SecretValue.getJsonSecrets, hparse, hsync]

theorem getJsonSecrets_failed (rt : Runtime) (p : SecretValue)
    (hparse : jsonUnmarshal p.Value = Unmarshalled.failed) :
    p.getJsonSecrets rt =
      { s := none
        e := some ("Invalid JSON used with jmesPath in secret: " ++ p.Descriptor.ObjectName ++
          ".") } := by
  simp [SecretValue.getJsonSecrets, hparse]

theorem jmesPathLoop_strings (rt : Runtime) (p : SecretValue) (data : Option JsonMap)
    (f : JMESPathEntry → GoString) (entries : List JMESPathEntry) :
    ∀ jsonValues : List SecretValue,
      (∀ entry ∈ entries, rt.search entry.Path data = Except.ok (JsonValue.string (f entry))) →
      jmesPathLoop rt p data entries jsonValues =
        { s := some (jsonValues ++ entries.map (fun entry =>
            { Value := toBytes (f entry)
              Descriptor := p.Descriptor.getJmesEntrySecretDescriptor entry }))
          e := none } := by
  induction entries with
  | nil => intro jsonValues _; simp [jmesPathLoop]
  | cons entry rest ih =>
    intro jsonValues h
    have h0 := h entry (List.mem_cons_self _ _)
    have hrest := fun e he => h e (List.mem_cons_of_mem _ he)
    simp [jmesPathLoop, h0, JsonValue.isNil, JsonValue.assertString, ih _ hrest]

theorem entryError_of_string (rt : Runtime) (data : Option JsonMap) (entry : JMESPathEntry)
    (h : ∃ str, rt.search entry.Path data = Except.ok (JsonValue.string str)) :
    entryError rt data entry = none := by
  obtain ⟨str, hstr⟩ := h
  simp [entryError, hstr]

theorem jmesPathLoop_cons_ok (rt : Runtime) (p : SecretValue) (data : Option JsonMap)
    (entry : JMESPathEntry) (rest : List JMESPathEntry) (jsonValues : List SecretValue)
    (h : entryError rt data entry = none) :
    ∃ secretValue, jmesPathLoop rt p data (entry :: rest) jsonValues =
      jmesPathLoop rt p data rest (jsonValues ++ [secretValue]) := by
  unfold entryError at h
  split at h
  · cases h
  · cases h
  · rename_i str hstr
    exact ⟨_, by simp [jmesPathLoop, hstr, JsonValue.isNil, JsonValue.assertString]; rfl⟩
  · cases h

theorem jmesPathLoop_cons_error (rt : Runtime) (p : SecretValue) (data : Option JsonMap)
    (entry : JMESPathEntry) (rest : List JMESPathEntry) (jsonValues : List SecretValue)
    (msg : GoString) (h : entryError rt data entry = some msg) :
    jmesPathLoop rt p data (entry :: rest) jsonValues = { s := none, e := some msg } := by
  unfold entryError at h
  split at h
  · rename_i err herr
    simp only [Option.some.injEq] at h
    simp [jmesPathLoop, herr, h]
  · rename_i hnull
    simp only [Option.some.injEq] at h
    simp [jmesPathLoop, hnull, JsonValue.isNil, h]
  · cases h
  · rename_i v hnull hstring hv
    simp only [Option.some.injEq] at h
    cases v with
    | null => exact absurd rfl hnull
    | string str => exact absurd rfl (hstring str)
    | bool b => simp [jmesPathLoop, hv, JsonValue.isNil, JsonValue.assertString, h]
    | number lit => simp [jmesPathLoop, hv, JsonValue.isNil, JsonValue.assertString, h]
    | array elems => simp [jmesPathLoop, hv, JsonValue.isNil, JsonValue.assertString, h]
    | object members => simp [jmesPathLoop, hv, JsonValue.isNil, JsonValue.assertString, h]

theorem jmesPathLoop_first_failure (rt : Runtime) (p : SecretValue) (data : Option JsonMap)
    (entry : JMESPathEntry) (post : List JMESPathEntry) (msg : GoString)
    (hfail : entryError rt data entry = some msg) (pre : List JMESPathEntry) :
    ∀ jsonValues : List SecretValue,
      (∀ earlier ∈ pre, entryError rt data earlier = none) →
      jmesPathLoop rt p data (pre ++ entry :: post) jsonValues = { s := none, e := some msg } := by
  induction pre with
  | nil =>
    intro jsonValues _
    exact jmesPathLoop_cons_error rt p data entry post jsonValues msg hfail
  | cons first pre ih =>
    intro jsonValues hpre
    obtain ⟨sv, hsv⟩ := jmesPathLoop_cons_ok rt p data first (pre ++ entry :: post) jsonValues
      (hpre first (List.mem_cons_self _ _))
    rw [List.cons_append, hsv]
    exact ih _ (fun e he => hpre e (List.mem_cons_of_mem _ he))

theorem jmesPathLoop_outcome (rt : Runtime) (p : SecretValue) (data : Option JsonMap)
    (entries : List JMESPathEntry) :
    ∀ jsonValues : List SecretValue,
      ((∀ entry ∈ entries, entryError rt data entry = none) ∧
        ∃ out, jmesPathLoop rt p data entries jsonValues = { s := some out, e := none }) ∨
      ((∃ entry ∈ entries, entryError rt data entry ≠ none) ∧
        ∃ msg, jmesPathLoop rt p data entries jsonValues = { s := none, e := some msg }) := by
  induction entries with
  | nil =>
    intro jsonValues
    exact Or.inl ⟨fun e he => absurd he (List.not_mem_nil e), jsonValues, by simp [jmesPathLoop]⟩
  | cons first rest ih =>
    intro jsonValues
    cases hfirst : entryError rt data first with
    | some msg =>
      refine Or.inr ⟨⟨first, List.mem_cons_self _ _, by simp [hfirst]⟩, msg, ?_⟩
      exact jmesPathLoop_cons_error rt p data first rest jsonValues msg hfirst
    | none =>
      obtain ⟨sv, hsv⟩ := jmesPathLoop_cons_ok rt p data first rest jsonValues hfirst
      rw [hsv]
      rcases ih (jsonValues ++ [sv]) with ⟨hall, hout⟩ | ⟨⟨e, he, hne⟩, hmsg⟩
      · refine Or.inl ⟨?_, hout⟩
        intro e he
        rcases List.mem_cons.mp he with rfl | he
        · exact hfirst
        · exact hall e he
      · exact Or.inr ⟨⟨e, List.mem_cons_of_mem _ he, hne⟩, hmsg⟩

theorem getJsonSecrets_sync_perm (rt₁ rt₂ : Runtime) (p q : SecretValue)
    (hvalue : p.Value = q.Value)
    (hname : p.Descriptor.ObjectName = q.Descriptor.ObjectName)
    (htype : p.Descriptor.ObjectType = q.Descriptor.ObjectType)
    (htranslate : p.Descriptor.translate = q.Descriptor.translate)
    (hmount : p.Descriptor.mountDir = q.Descriptor.mountDir)
    (hp : p.Descriptor.SyncAllKeys = true) (hq : q.Descriptor.SyncAllKeys = true) :
    (rt₁.order = rt₂.order → p.getJsonSecrets rt₁ = q.getJsonSecrets rt₂) ∧
    (p.getJsonSecrets rt₁).e = (q.getJsonSecrets rt₂).e ∧
    (((p.getJsonSecrets rt₁).s = none ∧ (q.getJsonSecrets rt₂).s = none) ∨
      ∃ out₁ out₂, (p.getJsonSecrets rt₁).s = some out₁ ∧ (q.getJsonSecrets rt₂).s = some out₂ ∧
        out₁.Perm out₂) := by
  have hbody : (fun kv : GoString × JsonValue => syncAllKeysSecret p kv.1 kv.2) =
      (fun kv => syncAllKeysSecret q kv.1 kv.2) := by
    funext kv
    simp [syncAllKeysSecret, hname, htype, htranslate, hmount]
  cases hparse : jsonUnmarshal p.Value with
  | failed =>
    have hparse2 : jsonUnmarshal q.Value = Unmarshalled.failed := by rw [← hvalue]; exact hparse
    rw [getJsonSecrets_failed rt₁ p hparse, getJsonSecrets_failed rt₂ q hparse2, hname]
    exact ⟨fun _ => rfl, rfl, Or.inl ⟨rfl, rfl⟩⟩
  | ok data =>
    have hparse2 : jsonUnmarshal q.Value = Unmarshalled.ok data := by rw [← hvalue]; exact hparse
    rw [getJsonSecrets_sync rt₁ p data hparse hp, getJsonSecrets_sync rt₂ q data hparse2 hq, hbody]
    refine ⟨fun horder => by rw [horder], rfl, Or.inr ⟨_, _, rfl, rfl, ?_⟩⟩
    exact ((rangeOrder_perm rt₁.order _).trans (rangeOrder_perm rt₂.order _).symm).map _

/-! ## Further lemmas on path mode -/

theorem entryError_eq_message (rt : Runtime) (data : Option JsonMap) (entry : JMESPathEntry) :
    entryError rt data entry = (entryFailure rt data entry).map (fun kind => kind.message entry) := by
  unfold entryError entryFailure
  split <;> simp_all [EntryFailure.message]

theorem entryFailure_eq_none_iff (rt : Runtime) (data : Option JsonMap) (entry : JMESPathEntry) :
    entryFailure rt data entry = none ↔ entryError rt data entry = none := by
  rw [entryError_eq_message]
  cases entryFailure rt data entry <;> simp

theorem entryError_eq_none (rt : Runtime) (data : Option JsonMap) (entry : JMESPathEntry)
    (h : entryError rt data entry = none) :
    ∃ str, rt.search entry.Path data = Except.ok (JsonValue.string str) := by
  unfold entryError at h
  split at h
  · cases h
  · cases h
  · rename_i str hstr
    exact ⟨str, hstr⟩
  · cases h

theorem jmesPathLoop_cons_string (rt : Runtime) (p : SecretValue) (data : Option JsonMap)
    (entry : JMESPathEntry) (rest : List JMESPathEntry) (jsonValues : List SecretValue)
    (str : GoString) (h : rt.search entry.Path data = Except.ok (JsonValue.string str)) :
    jmesPathLoop rt p data (entry :: rest) jsonValues =
      jmesPathLoop rt p data rest (jsonValues ++
        [{ Value := toBytes str
           Descriptor := p.Descriptor.getJmesEntrySecretDescriptor entry }]) := by
  simp [jmesPathLoop, h, JsonValue.isNil, JsonValue.assertString]

theorem jmesPathLoop_success (rt : Runtime) (p : SecretValue) (data : Option JsonMap)
    (entries : List JMESPathEntry) :
    ∀ (jsonValues out : List SecretValue),
      jmesPathLoop rt p data entries jsonValues = { s := some out, e := none } →
      ∃ f : JMESPathEntry → GoString,
        (∀ entry ∈ entries,
          rt.search entry.Path data = Except.ok (JsonValue.string (f entry))) ∧
        out = jsonValues ++ entries.map (fun entry =>
          { Value := toBytes (f entry)
            Descriptor := p.Descriptor.getJmesEntrySecretDescriptor entry }) := by
  intro jsonValues out h
  rcases jmesPathLoop_outcome rt p data entries jsonValues with
    ⟨hall, _⟩ | ⟨_, msg, hmsg⟩
  · have hchoose : ∀ entry : JMESPathEntry, ∃ str, entry ∈ entries →
        rt.search entry.Path data = Except.ok (JsonValue.string str) := by
      intro entry
      by_cases he : entry ∈ entries
      · obtain ⟨str, hstr⟩ := entryError_eq_none rt data entry (hall entry he)
        exact ⟨str, fun _ => hstr⟩
      · exact ⟨"", fun h => absurd h he⟩
    choose f hf using hchoose
    refine ⟨f, fun entry he => hf entry he, ?_⟩
    rw [jmesPathLoop_strings rt p data f entries jsonValues (fun entry he => hf entry he)] at h
    simp only [Returned.mk.injEq, Option.some.injEq, and_true] at h
    exact h.symm
  · rw [hmsg] at h
    simp at h

theorem jmesPathLoop_order (search : GoString → Option JsonMap → Except GoString JsonValue)
    (order₁ order₂ : List Nat) (p : SecretValue) (data : Option JsonMap)
    (entries : List JMESPathEntry) :
    ∀ jsonValues : List SecretValue,
      jmesPathLoop ⟨search, order₁⟩ p data entries jsonValues =
        jmesPathLoop ⟨search, order₂⟩ p data entries jsonValues := by
  induction entries with
  | nil => intro jsonValues; simp [jmesPathLoop]
  | cons entry rest ih =>
    intro jsonValues
    simp only [jmesPathLoop]
    split
    · rfl
    · split
      · rfl
      · split
        · rfl
        · exact ih _

theorem mapIndex_of_mem (m : JsonMap) (h : (m.map Prod.fst).Nodup) (k : GoString)
    (v : JsonValue) (hv : (k, v) ∈ m) : mapIndex m k = v := by
  induction m with
  | nil => cases hv
  | cons kv rest ih =>
    obtain ⟨k0, v0⟩ := kv
    simp only [List.map_cons, List.nodup_cons] at h
    rcases List.mem_cons.mp hv with hv | hv
    · cases hv
      simp [mapIndex]
    · have hne : k0 ≠ k := by
        intro hk
        subst hk
        exact h.1 (List.mem_map.mpr ⟨(k0, v), hv, rfl⟩)
      simp only [mapIndex, if_neg hne]
      exact ih h.2 hv

theorem mapIndex_of_not_mem (m : JsonMap) (k : GoString) (h : k ∉ m.map Prod.fst) :
    mapIndex m k = JsonValue.null := by
  induction m with
  | nil => rfl
  | cons kv rest ih =>
    obtain ⟨k0, v0⟩ := kv
    simp only [List.map_cons, List.mem_cons, not_or] at h
    simp only [mapIndex, if_neg (Ne.symm h.1)]
    exact ih h.2

theorem jmesPathLoop_error_source (rt : Runtime) (p : SecretValue) (data : Option JsonMap)
    (msg : GoString) (entries : List JMESPathEntry) :
    ∀ jsonValues : List SecretValue,
      (jmesPathLoop rt p data entries jsonValues).e = some msg →
      ∃ entry ∈ entries, entryError rt data entry = some msg := by
  induction entries with
  | nil => intro jsonValues h; simp [jmesPathLoop] at h
  | cons first rest ih =>
    intro jsonValues h
    cases hfirst : entryError rt data first with
    | some msg1 =>
      rw [jmesPathLoop_cons_error rt p data first rest jsonValues msg1 hfirst] at h
      simp only [Option.some.injEq] at h
      exact ⟨first, List.mem_cons_self _ _, by rw [hfirst, h]⟩
    | none =>
      obtain ⟨sv, hsv⟩ := jmesPathLoop_cons_ok rt p data first rest jsonValues hfirst
      rw [hsv] at h
      obtain ⟨entry, he, herr⟩ := ih _ h
      exact ⟨entry, List.mem_cons_of_mem _ he, herr⟩

theorem jmesPathLoop_congr (rt₁ rt₂ : Runtime) (p : SecretValue) (data : Option JsonMap)
    (entries : List JMESPathEntry) :
    ∀ jsonValues : List SecretValue,
      (∀ entry ∈ entries, rt₁.search entry.Path data = rt₂.search entry.Path data) →
      jmesPathLoop rt₁ p data entries jsonValues =
        jmesPathLoop rt₂ p data entries jsonValues := by
  induction entries with
  | nil => intro jsonValues _; simp [jmesPathLoop]
  | cons entry rest ih =>
    intro jsonValues h
    simp only [jmesPathLoop]
    rw [h entry (List.mem_cons_self _ _)]
    split
    · rfl
    · split
      · rfl
      · split
        · rfl
        · exact ih _ (fun e he => h e (List.mem_cons_of_mem _ he))

theorem chainResult_of_chain (expr : GoString) (data : Option JsonMap) (keys : List GoString)
    (h : Jmes.readChain expr = some (Except.ok keys)) :
    Jmes.chainResult expr data =
      some (Except.ok (keys.foldl Jmes.stepField (JsonValue.object (data.getD [])))) := by
  simp [Jmes.chainResult, h]

theorem chainResult_isSome (expr : GoString) (data : Option JsonMap)
    (h : (Jmes.readChain expr).isSome = true) :
    ∃ result, Jmes.chainResult expr data = some result := by
  unfold Jmes.chainResult
  cases hr : Jmes.readChain expr with
  | none => rw [hr] at h; cases h
  | some r =>
    cases r with
    | error err => exact ⟨_, rfl⟩
    | ok keys => exact ⟨_, rfl⟩

theorem librarySearch_chain (order : List Nat) (expr : GoString) (data : Option JsonMap)
    (result : Except GoString JsonValue) (h : Jmes.chainResult expr data = some result) :
    librarySearch order expr data = result := by
  unfold librarySearch
  split
  · rename_i hexpr
    subst hexpr
    have hnone : Jmes.readChain "keys(@)[0]" = none := by rfl
    simp [Jmes.chainResult, hnone] at h
  · simp [h]

/-! ## The claims -/

/-- C1: when the value decodes to a JSON object and `SyncAllKeys` is set, `getJsonSecrets`
succeeds with as many derived secrets as the object has top-level keys; every key is the alias
of exactly one derived secret, every alias is a key, and every derived descriptor has the
`ObjectName`, `ObjectType`, `translate` and `mountDir` of the parent. -/
theorem getJsonSecrets_syncAllKeys_one_per_key (rt : Runtime) (p : SecretValue) (m : JsonMap)
    (hparse : jsonUnmarshal p.Value = Unmarshalled.ok (some m))
    (hsync : p.Descriptor.SyncAllKeys = true) :
    ∃ out, p.getJsonSecrets rt = { s := some out, e := none } ∧
      out.length = (m.map Prod.fst).toFinset.card ∧
      (∀ key ∈ m.map Prod.fst,
        (out.map (fun sv => sv.Descriptor.ObjectAlias)).count key = 1) ∧
      (∀ sv ∈ out, sv.Descriptor.ObjectAlias ∈ m.map Prod.fst ∧
        sv.Descriptor.ObjectName = p.Descriptor.ObjectName ∧
        sv.Descriptor.ObjectType = p.Descriptor.ObjectType ∧
        sv.Descriptor.translate = p.Descriptor.translate ∧
        sv.Descriptor.mountDir = p.Descriptor.mountDir) := by
  have hnd := jsonUnmarshal_nodup _ _ hparse
  have hperm : (rangeOrder rt.order m).Perm m := rangeOrder_perm _ _
  have halias : ((rangeOrder rt.order m).map (fun kv => syncAllKeysSecret p kv.1 kv.2)).map
      (fun sv => sv.Descriptor.ObjectAlias) = (rangeOrder rt.order m).map Prod.fst := by
    rw [List.map_map]
    rfl
  refine ⟨(rangeOrder rt.order m).map (fun kv => syncAllKeysSecret p kv.1 kv.2),
    getJsonSecrets_sync rt p (some m) hparse hsync, ?_, ?_, ?_⟩
  · rw [List.toFinset_card_of_nodup hnd, List.length_map, List.length_map]
    exact hperm.length_eq
  · intro key hkey
    rw [halias, (hperm.map Prod.fst).count_eq]
    exact List.count_eq_one_of_mem hnd hkey
  · intro sv hsv
    obtain ⟨kv, hkv, rfl⟩ := List.mem_map.mp hsv
    refine ⟨?_, rfl, rfl, rfl, rfl⟩
    exact List.mem_map.mpr ⟨kv, hperm.subset hkv, rfl⟩

theorem getJsonSecrets_syncAllKeys_one_per_key_witness :
    jsonUnmarshal mixedObject = Unmarshalled.ok (some mixedMap) ∧
    ∃ out, SecretValue.getJsonSecrets exampleRuntime ⟨mixedObject, syncDescriptor⟩ =
        { s := some out, e := none } ∧
      out.length = (mixedMap.map Prod.fst).toFinset.card ∧
      (∀ key ∈ mixedMap.map Prod.fst,
        (out.map (fun sv => sv.Descriptor.ObjectAlias)).count key = 1) ∧
      (∀ sv ∈ out, sv.Descriptor.ObjectAlias ∈ mixedMap.map Prod.fst ∧
        sv.Descriptor.ObjectName = "db-creds" ∧
        sv.Descriptor.ObjectType = "secretsmanager" ∧
        sv.Descriptor.translate = "_" ∧
        sv.Descriptor.mountDir = "/mnt/secrets") :=
  ⟨by rfl, getJsonSecrets_syncAllKeys_one_per_key exampleRuntime ⟨mixedObject, syncDescriptor⟩
    mixedMap (by rfl) (by rfl)⟩

/-- C2: in sync-all-keys mode every top-level key has a derived secret with that alias, and
any derived secret with that alias has as `Value` the bytes of the string when the key holds a
string, and no bytes when it holds anything else; the extraction succeeds either way. -/
theorem getJsonSecrets_syncAllKeys_values (rt : Runtime) (p : SecretValue) (m : JsonMap)
    (hparse : jsonUnmarshal p.Value = Unmarshalled.ok (some m))
    (hsync : p.Descriptor.SyncAllKeys = true) :
    ∃ out, p.getJsonSecrets rt = { s := some out, e := none } ∧
      ∀ key value, (key, value) ∈ m →
        (∃ sv ∈ out, sv.Descriptor.ObjectAlias = key) ∧
        (∀ sv ∈ out, sv.Descriptor.ObjectAlias = key →
          (∀ str, value = JsonValue.string str → sv.Value = toBytes str) ∧
          ((∀ str, value ≠ JsonValue.string str) → sv.Value = [])) := by
  have hnd := jsonUnmarshal_nodup _ _ hparse
  have hperm : (rangeOrder rt.order m).Perm m := rangeOrder_perm _ _
  refine ⟨(rangeOrder rt.order m).map (fun kv => syncAllKeysSecret p kv.1 kv.2),
    getJsonSecrets_sync rt p (some m) hparse hsync, ?_⟩
  intro key value hmem
  constructor
  · exact ⟨syncAllKeysSecret p key value,
      List.mem_map.mpr ⟨(key, value), hperm.symm.subset hmem, rfl⟩, rfl⟩
  · intro sv hsv halias
    obtain ⟨kv, hkv, rfl⟩ := List.mem_map.mp hsv
    obtain ⟨k1, v1⟩ := kv
    have hk : k1 = key := halias
    subst hk
    have hv : v1 = value := mem_unique_of_nodup_keys m hnd k1 v1 value (hperm.subset hkv) hmem
    subst hv
    constructor
    · intro str hstr
      subst hstr
      rfl
    · intro hne
      cases v1 with
      | string s => exact absurd rfl (hne s)
      | null => rfl
      | bool b => rfl
      | number lit => rfl
      | array elems => rfl
      | object members => rfl

theorem getJsonSecrets_syncAllKeys_values_witness :
    jsonUnmarshal mixedObject = Unmarshalled.ok (some mixedMap) ∧
    (∃ out, SecretValue.getJsonSecrets exampleRuntime ⟨mixedObject, syncDescriptor⟩ =
        { s := some out, e := none } ∧
      ∀ key value, (key, value) ∈ mixedMap →
        (∃ sv ∈ out, sv.Descriptor.ObjectAlias = key) ∧
        (∀ sv ∈ out, sv.Descriptor.ObjectAlias = key →
          (∀ str, value = JsonValue.string str → sv.Value = toBytes str) ∧
          ((∀ str, value ≠ JsonValue.string str) → sv.Value = []))) ∧
    (SecretValue.getJsonSecrets exampleRuntime ⟨mixedObject, syncDescriptor⟩).s.map
        (fun out => out.map (fun sv => (sv.Descriptor.ObjectAlias, sv.Value))) =
      some [("b", []), ("a", toBytes "1")] :=
  ⟨by rfl, getJsonSecrets_syncAllKeys_values exampleRuntime ⟨mixedObject, syncDescriptor⟩
    mixedMap (by rfl) (by rfl), by decide⟩

/-- C3: when the value decodes to a JSON object, `SyncAllKeys` is not set and every query
entry resolves to a string, `getJsonSecrets` succeeds with one derived secret per entry in the
declared order, each carrying the alias of its entry and the bytes of the string its path
resolves to. -/
theorem getJsonSecrets_paths_in_order (rt : Runtime) (p : SecretValue) (m : JsonMap)
    (f : JMESPathEntry → GoString)
    (hparse : jsonUnmarshal p.Value = Unmarshalled.ok (some m))
    (hsync : p.Descriptor.SyncAllKeys = false)
    (hstr : ∀ entry ∈ p.Descriptor.JMESPath,
      rt.search entry.Path (some m) = Except.ok (JsonValue.string (f entry))) :
    ∃ out, p.getJsonSecrets rt = { s := some out, e := none } ∧
      out.length = p.Descriptor.JMESPath.length ∧
      out.map (fun sv => (sv.Descriptor.ObjectAlias, sv.Value)) =
        p.Descriptor.JMESPath.map (fun entry => (entry.ObjectAlias, toBytes (f entry))) := by
  refine ⟨p.Descriptor.JMESPath.map (fun entry =>
    { Value := toBytes (f entry)
      Descriptor := p.Descriptor.getJmesEntrySecretDescriptor entry }), ?_, ?_, ?_⟩
  · rw [getJsonSecrets_paths rt p (some m) hparse hsync]
    exact jmesPathLoop_strings rt p (some m) f _ [] hstr
  · simp
  · simp [List.map_map, Function.comp_def, SecretDescriptor.getJmesEntrySecretDescriptor]

theorem getJsonSecrets_paths_in_order_witness :
    jsonUnmarshal stringObject = Unmarshalled.ok (some stringMap) ∧
    ∃ out, SecretValue.getJsonSecrets exampleRuntime
        ⟨stringObject, pathDescriptor [⟨"a", "x"⟩]⟩ = { s := some out, e := none } ∧
      out.length = [(⟨"a", "x"⟩ : JMESPathEntry)].length ∧
      out.map (fun sv => (sv.Descriptor.ObjectAlias, sv.Value)) =
        [(⟨"a", "x"⟩ : JMESPathEntry)].map (fun entry => (entry.ObjectAlias, toBytes "1")) :=
  ⟨by rfl, getJsonSecrets_paths_in_order exampleRuntime
    ⟨stringObject, pathDescriptor [⟨"a", "x"⟩]⟩ stringMap (fun _ => "1") (by rfl) (by rfl)
    (by intro entry h; rw [show entry = ⟨"a", "x"⟩ from List.mem_singleton.mp h]; rfl)⟩

/-- C4: when the value is not a JSON document the decoder accepts, `getJsonSecrets` returns
the `nil` slice and the error "Invalid JSON used with jmesPath in secret: <ObjectName>.",
whatever `SyncAllKeys` and the query entries are. -/
theorem getJsonSecrets_invalid_json (rt : Runtime) (p : SecretValue)
    (hbad : Json.readDocument (p.Value.map UInt8.toNat) = none) :
    p.getJsonSecrets rt =
      { s := none
        e := some ("Invalid JSON used with jmesPath in secret: " ++ p.Descriptor.ObjectName ++
          ".") } := by
  apply getJsonSecrets_failed
  simp [jsonUnmarshal, hbad]

theorem getJsonSecrets_invalid_json_witness :
    Json.readDocument ((toBytes "not-json").map UInt8.toNat) = none ∧
    SecretValue.getJsonSecrets exampleRuntime ⟨toBytes "not-json", syncDescriptor⟩ =
      { s := none, e := some "Invalid JSON used with jmesPath in secret: db-creds." } ∧
    SecretValue.getJsonSecrets exampleRuntime ⟨toBytes "not-json", pathDescriptor [⟨"a", "x"⟩]⟩ =
      { s := none, e := some "Invalid JSON used with jmesPath in secret: db-creds." } :=
  ⟨by rfl,
    getJsonSecrets_invalid_json exampleRuntime ⟨toBytes "not-json", syncDescriptor⟩ (by rfl),
    getJsonSecrets_invalid_json exampleRuntime ⟨toBytes "not-json", pathDescriptor [⟨"a", "x"⟩]⟩
      (by rfl)⟩

/-- C5: in path mode, when the entries before a query entry resolve to strings and that
entry's path evaluates without error to no result, `getJsonSecrets` returns the `nil` slice
and the error "JMES Path - <Path> for object alias - <ObjectAlias> does not point to a valid
object.", which holds both the path and the alias of the entry. -/
theorem getJsonSecrets_query_not_found (rt : Runtime) (p : SecretValue) (m : JsonMap)
    (pre post : List JMESPathEntry) (entry : JMESPathEntry)
    (hparse : jsonUnmarshal p.Value = Unmarshalled.ok (some m))
    (hsync : p.Descriptor.SyncAllKeys = false)
    (hentries : p.Descriptor.JMESPath = pre ++ entry :: post)
    (hpre : ∀ earlier ∈ pre,
      ∃ str, rt.search earlier.Path (some m) = Except.ok (JsonValue.string str))
    (hnil : rt.search entry.Path (some m) = Except.ok JsonValue.null) :
    p.getJsonSecrets rt =
      { s := none
        e := some ("JMES Path - " ++ entry.Path ++ " for object alias - " ++ entry.ObjectAlias ++
          " does not point to a valid object.") } ∧
    ∃ head mid tail, (p.getJsonSecrets rt).e =
      some (head ++ entry.Path ++ mid ++ entry.ObjectAlias ++ tail) := by
  have hres : p.getJsonSecrets rt =
      { s := none
        e := some ("JMES Path - " ++ entry.Path ++ " for object alias - " ++ entry.ObjectAlias ++
          " does not point to a valid object.") } := by
    rw [getJsonSecrets_paths rt p (some m) hparse hsync, hentries]
    apply jmesPathLoop_first_failure
    · simp [entryError, hnil]
    · exact fun e he => entryError_of_string rt (some m) e (hpre e he)
  exact ⟨hres, "JMES Path - ", " for object alias - ", " does not point to a valid object.",
    by rw [hres]⟩

theorem getJsonSecrets_query_not_found_witness :
    jsonUnmarshal singleObject = Unmarshalled.ok (some [("a", JsonValue.string "1")]) ∧
    fieldSearch "missing" (some [("a", JsonValue.string "1")]) = Except.ok JsonValue.null ∧
    SecretValue.getJsonSecrets exampleRuntime
        ⟨singleObject, pathDescriptor [⟨"a", "x"⟩, ⟨"missing", "m"⟩, ⟨"a", "y"⟩]⟩ =
      { s := none
        e := some "JMES Path - missing for object alias - m does not point to a valid object." } :=
  ⟨by rfl, by rfl,
    (getJsonSecrets_query_not_found exampleRuntime
      ⟨singleObject, pathDescriptor [⟨"a", "x"⟩, ⟨"missing", "m"⟩, ⟨"a", "y"⟩]⟩
      [("a", JsonValue.string "1")] [⟨"a", "x"⟩] [⟨"a", "y"⟩] ⟨"missing", "m"⟩
      (by rfl) (by rfl) (by rfl)
      (by intro e he; rw [List.mem_singleton.mp he]; exact ⟨"1", rfl⟩)
      (by rfl)).1⟩

/-- C6: in path mode, when the entries before a query entry resolve to strings and that
entry's path resolves to an object, an array, a number or a boolean, `getJsonSecrets` returns
the `nil` slice and the error "Invalid JMES search result type for path:<Path>. Only string is
allowed." naming the path. -/
theorem getJsonSecrets_unsupported_result_type (rt : Runtime) (p : SecretValue) (m : JsonMap)
    (pre post : List JMESPathEntry) (entry : JMESPathEntry) (v : JsonValue)
    (hparse : jsonUnmarshal p.Value = Unmarshalled.ok (some m))
    (hsync : p.Descriptor.SyncAllKeys = false)
    (hentries : p.Descriptor.JMESPath = pre ++ entry :: post)
    (hpre : ∀ earlier ∈ pre,
      ∃ str, rt.search earlier.Path (some m) = Except.ok (JsonValue.string str))
    (hres : rt.search entry.Path (some m) = Except.ok v)
    (hkind : (∃ members, v = JsonValue.object members) ∨ (∃ elems, v = JsonValue.array elems) ∨
      (∃ lit, v = JsonValue.number lit) ∨ (∃ b, v = JsonValue.bool b)) :
    p.getJsonSecrets rt =
      { s := none
        e := some ("Invalid JMES search result type for path:" ++ entry.Path ++
          ". Only string is allowed.") } := by
  rw [getJsonSecrets_paths rt p (some m) hparse hsync, hentries]
  apply jmesPathLoop_first_failure
  · rcases hkind with ⟨x, rfl⟩ | ⟨x, rfl⟩ | ⟨x, rfl⟩ | ⟨x, rfl⟩ <;> simp [entryError, hres]
  · exact fun e he => entryError_of_string rt (some m) e (hpre e he)

theorem getJsonSecrets_unsupported_result_type_witness :
    jsonUnmarshal numberObject = Unmarshalled.ok (some [("a", JsonValue.number "1")]) ∧
    fieldSearch "a" (some [("a", JsonValue.number "1")]) = Except.ok (JsonValue.number "1") ∧
    SecretValue.getJsonSecrets exampleRuntime ⟨numberObject, pathDescriptor [⟨"a", "x"⟩]⟩ =
      { s := none
        e := some "Invalid JMES search result type for path:a. Only string is allowed." } :=
  ⟨by rfl, by rfl,
    getJsonSecrets_unsupported_result_type exampleRuntime
      ⟨numberObject, pathDescriptor [⟨"a", "x"⟩]⟩ [("a", JsonValue.number "1")] [] []
      ⟨"a", "x"⟩ (JsonValue.number "1") (by rfl) (by rfl) (by rfl)
      (by intro e he; cases he) (by rfl) (Or.inr (Or.inr (Or.inl ⟨"1", rfl⟩)))⟩

/-- C7: in path mode on a decoded JSON object, `getJsonSecrets` returns an error exactly when
some query entry fails; a call that returns an error returns the `nil` slice, a call that
returns no error returns a slice; and when the entries before a failing entry all succeed, the
error returned is the one of that entry, whatever entries follow it. -/
theorem getJsonSecrets_paths_all_or_nothing (rt : Runtime) (p : SecretValue) (m : JsonMap)
    (hparse : jsonUnmarshal p.Value = Unmarshalled.ok (some m))
    (hsync : p.Descriptor.SyncAllKeys = false) :
    ((p.getJsonSecrets rt).e ≠ none ↔
      ∃ entry ∈ p.Descriptor.JMESPath, entryError rt (some m) entry ≠ none) ∧
    ((p.getJsonSecrets rt).e ≠ none → (p.getJsonSecrets rt).s = none) ∧
    ((p.getJsonSecrets rt).e = none → ∃ out, (p.getJsonSecrets rt).s = some out) ∧
    (∀ pre entry post, p.Descriptor.JMESPath = pre ++ entry :: post →
      (∀ earlier ∈ pre, entryError rt (some m) earlier = none) →
      entryError rt (some m) entry ≠ none →
      (p.getJsonSecrets rt).e = entryError rt (some m) entry ∧ (p.getJsonSecrets rt).s = none) := by
  rw [getJsonSecrets_paths rt p (some m) hparse hsync]
  refine ⟨?_, ?_, ?_, ?_⟩
  · rcases jmesPathLoop_outcome rt p (some m) p.Descriptor.JMESPath [] with
      ⟨hall, out, hout⟩ | ⟨hex, msg, hmsg⟩
    · rw [hout]
      constructor
      · intro h
        exact absurd rfl h
      · rintro ⟨e, he, hne⟩
        exact absurd (hall e he) hne
    · rw [hmsg]
      exact ⟨fun _ => hex, fun _ => by simp⟩
  · rcases jmesPathLoop_outcome rt p (some m) p.Descriptor.JMESPath [] with
      ⟨_, out, hout⟩ | ⟨_, msg, hmsg⟩
    · rw [hout]
      intro h
      exact absurd rfl h
    · rw [hmsg]
      intro _
      rfl
  · rcases jmesPathLoop_outcome rt p (some m) p.Descriptor.JMESPath [] with
      ⟨_, out, hout⟩ | ⟨_, msg, hmsg⟩
    · rw [hout]
      intro _
      exact ⟨out, rfl⟩
    · rw [hmsg]
      intro h
      cases h
  · intro pre entry post hentries hpre hfail
    obtain ⟨msg, hmsg⟩ := Option.ne_none_iff_exists'.mp hfail
    rw [hentries, jmesPathLoop_first_failure rt p (some m) entry post msg hmsg pre [] hpre, hmsg]
    exact ⟨rfl, rfl⟩

theorem getJsonSecrets_paths_all_or_nothing_witness :
    jsonUnmarshal mixedObject = Unmarshalled.ok (some mixedMap) ∧
    entryError exampleRuntime (some mixedMap) ⟨"a", "x"⟩ = none ∧
    (SecretValue.getJsonSecrets exampleRuntime
        ⟨mixedObject, pathDescriptor [⟨"a", "x"⟩, ⟨"b", "y"⟩, ⟨"missing", "z"⟩]⟩).e =
      entryError exampleRuntime (some mixedMap) ⟨"b", "y"⟩ ∧
    (SecretValue.getJsonSecrets exampleRuntime
        ⟨mixedObject, pathDescriptor [⟨"a", "x"⟩, ⟨"b", "y"⟩, ⟨"missing", "z"⟩]⟩).s = none :=
  ⟨by rfl, by rfl,
    (getJsonSecrets_paths_all_or_nothing exampleRuntime
      ⟨mixedObject, pathDescriptor [⟨"a", "x"⟩, ⟨"b", "y"⟩, ⟨"missing", "z"⟩]⟩ mixedMap
      (by rfl) (by rfl)).2.2.2 [⟨"a", "x"⟩] ⟨"b", "y"⟩ [⟨"missing", "z"⟩] (by rfl)
      (by intro e he; rw [List.mem_singleton.mp he]; rfl) (by decide)⟩

/-- C8: `String` returns the marker "<REDACTED>" for every `SecretValue`, so any two
secrets, whatever their `Value` and `Descriptor`, are printed as the same text. -/
theorem String_is_fixed_marker (p q : SecretValue) :
    p.String = "<REDACTED>" ∧ p.String = q.String :=
  ⟨rfl, rfl⟩

/-- The claim C9 fails for a top-level `null`: the document is valid JSON and not an object,
yet the decoder reports no error and leaves the map `nil`. Sync-all-keys mode then succeeds
with an empty slice, and path mode goes on to evaluate the entries. -/
theorem getJsonSecrets_null_document_not_rejected :
    Json.readDocument ((toBytes "null").map UInt8.toNat) = some JsonValue.null ∧
    SecretValue.getJsonSecrets exampleRuntime ⟨toBytes "null", syncDescriptor⟩ =
      { s := some [], e := none } ∧
    SecretValue.getJsonSecrets exampleRuntime ⟨toBytes "null", pathDescriptor []⟩ =
      { s := some [], e := none } ∧
    SecretValue.getJsonSecrets exampleRuntime ⟨toBytes "null", pathDescriptor [⟨"a", "x"⟩]⟩ =
      { s := none
        e := some "JMES Path - a for object alias - x does not point to a valid object." } ∧
    (SecretValue.getJsonSecrets exampleRuntime ⟨toBytes "null", syncDescriptor⟩).e ≠
      some "Invalid JSON used with jmesPath in secret: db-creds." :=
  ⟨by rfl, by decide, by decide, by decide, by decide⟩

/-- C9 as amended: when the value is a JSON document whose top-level value is an array, a
string, a number or a boolean, `getJsonSecrets` returns the `nil` slice and the error "Invalid
JSON used with jmesPath in secret: <ObjectName>.", in sync-all-keys mode and in path mode
alike. -/
theorem getJsonSecrets_non_object (rt : Runtime) (p : SecretValue) (v : JsonValue)
    (hdoc : Json.readDocument (p.Value.map UInt8.toNat) = some v)
    (hkind : (∃ elems, v = JsonValue.array elems) ∨ (∃ str, v = JsonValue.string str) ∨
      (∃ lit, v = JsonValue.number lit) ∨ (∃ b, v = JsonValue.bool b)) :
    p.getJsonSecrets rt =
      { s := none
        e := some ("Invalid JSON used with jmesPath in secret: " ++ p.Descriptor.ObjectName ++
          ".") } := by
  apply getJsonSecrets_failed
  rcases hkind with ⟨x, rfl⟩ | ⟨x, rfl⟩ | ⟨x, rfl⟩ | ⟨x, rfl⟩ <;> simp [jsonUnmarshal, hdoc]

theorem getJsonSecrets_non_object_witness :
    Json.readDocument ((toBytes "[\"a\"]").map UInt8.toNat) =
      some (JsonValue.array [JsonValue.string "a"]) ∧
    SecretValue.getJsonSecrets exampleRuntime ⟨toBytes "[\"a\"]", syncDescriptor⟩ =
      { s := none, e := some "Invalid JSON used with jmesPath in secret: db-creds." } ∧
    SecretValue.getJsonSecrets exampleRuntime ⟨toBytes "[\"a\"]", pathDescriptor [⟨"a", "x"⟩]⟩ =
      { s := none, e := some "Invalid JSON used with jmesPath in secret: db-creds." } :=
  ⟨by rfl,
    getJsonSecrets_non_object exampleRuntime ⟨toBytes "[\"a\"]", syncDescriptor⟩
      (JsonValue.array [JsonValue.string "a"]) (by rfl) (Or.inl ⟨_, rfl⟩),
    getJsonSecrets_non_object exampleRuntime ⟨toBytes "[\"a\"]", pathDescriptor [⟨"a", "x"⟩]⟩
      (JsonValue.array [JsonValue.string "a"]) (by rfl) (Or.inl ⟨_, rfl⟩)⟩

/-- C10: when `SyncAllKeys` is set, two secrets with the same `Value` whose descriptors
differ only in their `JMESPath` lists give the same result: identical when the map is visited
in the same order, and in every case the same error and the same derived secrets up to order;
the query evaluator is not consulted. -/
theorem getJsonSecrets_syncAllKeys_ignores_entries (rt₁ rt₂ : Runtime) (p q : SecretValue)
    (hvalue : p.Value = q.Value)
    (hname : p.Descriptor.ObjectName = q.Descriptor.ObjectName)
    (_halias : p.Descriptor.ObjectAlias = q.Descriptor.ObjectAlias)
    (htype : p.Descriptor.ObjectType = q.Descriptor.ObjectType)
    (htranslate : p.Descriptor.translate = q.Descriptor.translate)
    (hmount : p.Descriptor.mountDir = q.Descriptor.mountDir)
    (hp : p.Descriptor.SyncAllKeys = true) (hq : q.Descriptor.SyncAllKeys = true) :
    (rt₁.order = rt₂.order → p.getJsonSecrets rt₁ = q.getJsonSecrets rt₂) ∧
    (p.getJsonSecrets rt₁).e = (q.getJsonSecrets rt₂).e ∧
    (((p.getJsonSecrets rt₁).s = none ∧ (q.getJsonSecrets rt₂).s = none) ∨
      ∃ out₁ out₂, (p.getJsonSecrets rt₁).s = some out₁ ∧ (q.getJsonSecrets rt₂).s = some out₂ ∧
        out₁.Perm out₂) :=
  getJsonSecrets_sync_perm rt₁ rt₂ p q hvalue hname htype htranslate hmount hp hq

theorem getJsonSecrets_syncAllKeys_ignores_entries_witness :
    syncDescriptorWithEntries.SyncAllKeys = true ∧
    SecretValue.getJsonSecrets exampleRuntime ⟨mixedObject, syncDescriptorWithEntries⟩ =
      SecretValue.getJsonSecrets exampleRuntime ⟨mixedObject, syncDescriptor⟩ :=
  ⟨by rfl,
    (getJsonSecrets_syncAllKeys_ignores_entries exampleRuntime exampleRuntime
      ⟨mixedObject, syncDescriptorWithEntries⟩ ⟨mixedObject, syncDescriptor⟩
      (by rfl) (by rfl) (by rfl) (by rfl) (by rfl) (by rfl) (by rfl) (by rfl)).1 rfl⟩

/-- C11: in path mode, when the entries before a query entry resolve to strings and the
query evaluator returns an error for that entry's path, `getJsonSecrets` returns the `nil`
slice and the error "Invalid JMES Path: <Path>." naming the path. -/
theorem getJsonSecrets_invalid_query (rt : Runtime) (p : SecretValue) (m : JsonMap)
    (pre post : List JMESPathEntry) (entry : JMESPathEntry) (err : GoString)
    (hparse : jsonUnmarshal p.Value = Unmarshalled.ok (some m))
    (hsync : p.Descriptor.SyncAllKeys = false)
    (hentries : p.Descriptor.JMESPath = pre ++ entry :: post)
    (hpre : ∀ earlier ∈ pre,
      ∃ str, rt.search earlier.Path (some m) = Except.ok (JsonValue.string str))
    (herr : rt.search entry.Path (some m) = Except.error err) :
    p.getJsonSecrets rt =
      { s := none, e := some ("Invalid JMES Path: " ++ entry.Path ++ ".") } := by
  rw [getJsonSecrets_paths rt p (some m) hparse hsync, hentries]
  apply jmesPathLoop_first_failure
  · simp [entryError, herr]
  · exact fun e he => entryError_of_string rt (some m) e (hpre e he)

theorem getJsonSecrets_invalid_query_witness :
    jsonUnmarshal singleObject = Unmarshalled.ok (some [("a", JsonValue.string "1")]) ∧
    fieldSearch "a[" (some [("a", JsonValue.string "1")]) = Except.error "SyntaxError" ∧
    SecretValue.getJsonSecrets exampleRuntime
        ⟨singleObject, pathDescriptor [⟨"a", "x"⟩, ⟨"a[", "y"⟩, ⟨"a", "z"⟩]⟩ =
      { s := none, e := some "Invalid JMES Path: a[." } :=
  ⟨by rfl, by rfl,
    getJsonSecrets_invalid_query exampleRuntime
      ⟨singleObject, pathDescriptor [⟨"a", "x"⟩, ⟨"a[", "y"⟩, ⟨"a", "z"⟩]⟩
      [("a", JsonValue.string "1")] [⟨"a", "x"⟩] [⟨"a", "z"⟩] ⟨"a[", "y"⟩ "SyntaxError"
      (by rfl) (by rfl) (by rfl)
      (by intro e he; rw [List.mem_singleton.mp he]; exact ⟨"1", rfl⟩)
      (by rfl)⟩

/-- C12: when the descriptor sets `SyncAllKeys` or lists at least one query entry, a call of
`getJsonSecrets` that succeeds with an empty slice has `SyncAllKeys` set and a decoded map
without keys. -/
theorem getJsonSecrets_empty_only_without_keys (rt : Runtime) (p : SecretValue)
    (hcontract : p.Descriptor.SyncAllKeys = true ∨ p.Descriptor.JMESPath ≠ [])
    (hok : (p.getJsonSecrets rt).e = none)
    (hempty : (p.getJsonSecrets rt).s = some []) :
    p.Descriptor.SyncAllKeys = true ∧
      ∃ data, jsonUnmarshal p.Value = Unmarshalled.ok data ∧
        (data.getD []).map Prod.fst = [] := by
  cases hparse : jsonUnmarshal p.Value with
  | failed =>
    rw [getJsonSecrets_failed rt p hparse] at hok
    cases hok
  | ok data =>
    cases hsync : p.Descriptor.SyncAllKeys with
    | true =>
      refine ⟨rfl, data, rfl, ?_⟩
      rw [getJsonSecrets_sync rt p data hparse hsync] at hempty
      simp only [Option.some.injEq, List.map_eq_nil_iff] at hempty
      have hperm := rangeOrder_perm rt.order (data.getD [])
      rw [hempty] at hperm
      rw [List.nil_perm.mp hperm]
      rfl
    | false =>
      exfalso
      have hne : p.Descriptor.JMESPath ≠ [] := by
        rcases hcontract with h | h
        · rw [hsync] at h
          cases h
        · exact h
      rw [getJsonSecrets_paths rt p data hparse hsync] at hok hempty
      have hres : jmesPathLoop rt p data p.Descriptor.JMESPath [] =
          { s := some [], e := none } := by
        cases hloop : jmesPathLoop rt p data p.Descriptor.JMESPath [] with
        | mk s e =>
          rw [hloop] at hok hempty
          simp only at hok hempty
          rw [hok, hempty]
      obtain ⟨f, _, hout⟩ := jmesPathLoop_success rt p data _ _ _ hres
      simp only [List.nil_append] at hout
      exact hne (List.map_eq_nil_iff.mp hout.symm)

theorem getJsonSecrets_empty_only_without_keys_witness :
    SecretValue.getJsonSecrets exampleRuntime ⟨emptyObject, syncDescriptor⟩ =
      { s := some [], e := none } ∧
    syncDescriptor.SyncAllKeys = true ∧
      ∃ data, jsonUnmarshal emptyObject = Unmarshalled.ok data ∧
        (data.getD []).map Prod.fst = [] :=
  ⟨by decide,
    getJsonSecrets_empty_only_without_keys exampleRuntime ⟨emptyObject, syncDescriptor⟩
      (Or.inl rfl) (by decide) (by decide)⟩

/-- C13: the descriptor `getJmesEntrySecretDescriptor` builds for a query entry has the
`ObjectName`, `ObjectType`, `translate` and `mountDir` of the parent and the `ObjectAlias` of
the entry; hence every derived secret of a successful extraction in path mode carries the
`ObjectName`, `ObjectType`, `translate` and `mountDir` of the parent. -/
theorem getJmesEntrySecretDescriptor_copies_parent :
    (∀ (parent : SecretDescriptor) (entry : JMESPathEntry),
      (parent.getJmesEntrySecretDescriptor entry).ObjectName = parent.ObjectName ∧
      (parent.getJmesEntrySecretDescriptor entry).ObjectType = parent.ObjectType ∧
      (parent.getJmesEntrySecretDescriptor entry).translate = parent.translate ∧
      (parent.getJmesEntrySecretDescriptor entry).mountDir = parent.mountDir ∧
      (parent.getJmesEntrySecretDescriptor entry).ObjectAlias = entry.ObjectAlias) ∧
    (∀ (rt : Runtime) (p : SecretValue) (data : Option JsonMap) (out : List SecretValue),
      jsonUnmarshal p.Value = Unmarshalled.ok data →
      p.Descriptor.SyncAllKeys = false →
      p.getJsonSecrets rt = { s := some out, e := none } →
      ∀ sv ∈ out,
        sv.Descriptor.ObjectName = p.Descriptor.ObjectName ∧
        sv.Descriptor.ObjectType = p.Descriptor.ObjectType ∧
        sv.Descriptor.translate = p.Descriptor.translate ∧
        sv.Descriptor.mountDir = p.Descriptor.mountDir) := by
  refine ⟨fun parent entry => ⟨rfl, rfl, rfl, rfl, rfl⟩, ?_⟩
  intro rt p data out hparse hsync hres sv hsv
  rw [getJsonSecrets_paths rt p data hparse hsync] at hres
  obtain ⟨f, _, hout⟩ := jmesPathLoop_success rt p data _ _ _ hres
  rw [hout, List.nil_append] at hsv
  obtain ⟨entry, _, rfl⟩ := List.mem_map.mp hsv
  exact ⟨rfl, rfl, rfl, rfl⟩

theorem getJmesEntrySecretDescriptor_copies_parent_witness :
    SecretValue.getJsonSecrets exampleRuntime
        ⟨stringObject, pathDescriptor [⟨"a", "x"⟩, ⟨"b", "y"⟩]⟩ =
      { s := some
          [⟨toBytes "1", ⟨"db-creds", "x", "secretsmanager", false, [], "_", "/mnt/secrets"⟩⟩,
           ⟨toBytes "2", ⟨"db-creds", "y", "secretsmanager", false, [], "_", "/mnt/secrets"⟩⟩]
        e := none } ∧
    ∀ sv ∈ [(⟨toBytes "1",
          ⟨"db-creds", "x", "secretsmanager", false, [], "_", "/mnt/secrets"⟩⟩ : SecretValue),
        ⟨toBytes "2", ⟨"db-creds", "y", "secretsmanager", false, [], "_", "/mnt/secrets"⟩⟩],
      sv.Descriptor.ObjectName = "db-creds" ∧
      sv.Descriptor.ObjectType = "secretsmanager" ∧
      sv.Descriptor.translate = "_" ∧
      sv.Descriptor.mountDir = "/mnt/secrets" :=
  ⟨by decide,
    getJmesEntrySecretDescriptor_copies_parent.2 exampleRuntime
      ⟨stringObject, pathDescriptor [⟨"a", "x"⟩, ⟨"b", "y"⟩]⟩ (some stringMap) _
      (by rfl) (by rfl) (by decide)⟩

/-- C14: every error message of `getJsonSecrets` is one of the four fixed templates, filled
with `ObjectName` of the descriptor or with `Path` and `ObjectAlias` of a query entry; and two
secrets with the same descriptor, whatever their values, get the same error when both fail at
decoding, or when both fail at the same entry with the same kind of failure. -/
theorem getJsonSecrets_errors_name_descriptor_only (rt₁ rt₂ : Runtime) (p q : SecretValue)
    (hdesc : p.Descriptor = q.Descriptor) :
    (∀ msg, (p.getJsonSecrets rt₁).e = some msg →
      msg = "Invalid JSON used with jmesPath in secret: " ++ p.Descriptor.ObjectName ++ "." ∨
      ∃ entry ∈ p.Descriptor.JMESPath,
        msg = "Invalid JMES Path: " ++ entry.Path ++ "." ∨
        msg = "JMES Path - " ++ entry.Path ++ " for object alias - " ++ entry.ObjectAlias ++
          " does not point to a valid object." ∨
        msg = "Invalid JMES search result type for path:" ++ entry.Path ++
          ". Only string is allowed.") ∧
    (jsonUnmarshal p.Value = Unmarshalled.failed → jsonUnmarshal q.Value = Unmarshalled.failed →
      (p.getJsonSecrets rt₁).e = (q.getJsonSecrets rt₂).e) ∧
    (∀ (data₁ data₂ : Option JsonMap) (pre post : List JMESPathEntry) (entry : JMESPathEntry)
      (kind : EntryFailure),
      jsonUnmarshal p.Value = Unmarshalled.ok data₁ →
      jsonUnmarshal q.Value = Unmarshalled.ok data₂ →
      p.Descriptor.SyncAllKeys = false →
      p.Descriptor.JMESPath = pre ++ entry :: post →
      (∀ earlier ∈ pre, entryFailure rt₁ data₁ earlier = none) →
      (∀ earlier ∈ pre, entryFailure rt₂ data₂ earlier = none) →
      entryFailure rt₁ data₁ entry = some kind →
      entryFailure rt₂ data₂ entry = some kind →
      (p.getJsonSecrets rt₁).e = some (kind.message entry) ∧
      (q.getJsonSecrets rt₂).e = some (kind.message entry)) := by
  refine ⟨?_, ?_, ?_⟩
  · intro msg hmsg
    cases hparse : jsonUnmarshal p.Value with
    | failed =>
      rw [getJsonSecrets_failed rt₁ p hparse] at hmsg
      simp only [Option.some.injEq] at hmsg
      exact Or.inl hmsg.symm
    | ok data =>
      cases hsync : p.Descriptor.SyncAllKeys with
      | true =>
        rw [getJsonSecrets_sync rt₁ p data hparse hsync] at hmsg
        cases hmsg
      | false =>
        rw [getJsonSecrets_paths rt₁ p data hparse hsync] at hmsg
        obtain ⟨entry, he, herr⟩ := jmesPathLoop_error_source rt₁ p data msg _ _ hmsg
        refine Or.inr ⟨entry, he, ?_⟩
        rw [entryError_eq_message] at herr
        cases hkind : entryFailure rt₁ data entry with
        | none => rw [hkind] at herr; cases herr
        | some kind =>
          rw [hkind] at herr
          simp only [Option.map_some', Option.some.injEq] at herr
          cases kind
          · exact Or.inl herr.symm
          · exact Or.inr (Or.inl herr.symm)
          · exact Or.inr (Or.inr herr.symm)
  · intro hp hq
    rw [getJsonSecrets_failed rt₁ p hp, getJsonSecrets_failed rt₂ q hq, hdesc]
  · intro data₁ data₂ pre post entry kind hp hq hsync hentries hpre₁ hpre₂ hk₁ hk₂
    have hsync2 : q.Descriptor.SyncAllKeys = false := by rw [← hdesc]; exact hsync
    have hentries2 : q.Descriptor.JMESPath = pre ++ entry :: post := by
      rw [← hdesc]; exact hentries
    rw [getJsonSecrets_paths rt₁ p data₁ hp hsync, getJsonSecrets_paths rt₂ q data₂ hq hsync2,
      hentries, hentries2]
    have h1 : entryError rt₁ data₁ entry = some (kind.message entry) := by
      rw [entryError_eq_message, hk₁]; rfl
    have h2 : entryError rt₂ data₂ entry = some (kind.message entry) := by
      rw [entryError_eq_message, hk₂]; rfl
    rw [jmesPathLoop_first_failure rt₁ p data₁ entry post _ h1 pre []
        (fun e he => (entryFailure_eq_none_iff rt₁ data₁ e).mp (hpre₁ e he)),
      jmesPathLoop_first_failure rt₂ q data₂ entry post _ h2 pre []
        (fun e he => (entryFailure_eq_none_iff rt₂ data₂ e).mp (hpre₂ e he))]
    exact ⟨rfl, rfl⟩

theorem getJsonSecrets_errors_name_descriptor_only_witness :
    jsonUnmarshal mixedObject = Unmarshalled.ok (some mixedMap) ∧
    jsonUnmarshal otherMixedObject = Unmarshalled.ok (some otherMixedMap) ∧
    entryFailure exampleRuntime (some mixedMap) ⟨"b", "y"⟩ =
      some EntryFailure.unsupportedResultType ∧
    entryFailure exampleRuntime (some otherMixedMap) ⟨"b", "y"⟩ =
      some EntryFailure.unsupportedResultType ∧
    (SecretValue.getJsonSecrets exampleRuntime
        ⟨mixedObject, pathDescriptor [⟨"a", "x"⟩, ⟨"b", "y"⟩]⟩).e =
      some (EntryFailure.unsupportedResultType.message ⟨"b", "y"⟩) ∧
    (SecretValue.getJsonSecrets exampleRuntime
        ⟨otherMixedObject, pathDescriptor [⟨"a", "x"⟩, ⟨"b", "y"⟩]⟩).e =
      some (EntryFailure.unsupportedResultType.message ⟨"b", "y"⟩) :=
  ⟨by rfl, by rfl, by rfl, by rfl,
    (getJsonSecrets_errors_name_descriptor_only exampleRuntime exampleRuntime
      ⟨mixedObject, pathDescriptor [⟨"a", "x"⟩, ⟨"b", "y"⟩]⟩
      ⟨otherMixedObject, pathDescriptor [⟨"a", "x"⟩, ⟨"b", "y"⟩]⟩ rfl).2.2
      (some mixedMap) (some otherMixedMap) [⟨"a", "x"⟩] [] ⟨"b", "y"⟩
      EntryFailure.unsupportedResultType (by rfl) (by rfl) (by rfl) (by rfl)
      (by intro e he; rw [List.mem_singleton.mp he]; rfl)
      (by intro e he; rw [List.mem_singleton.mp he]; rfl)
      (by rfl) (by rfl)⟩

/-- The claim C15 fails in path mode: the expression `keys(@)[0]` takes the first key the
library meets when it ranges over the map, so two calls on the same secret with the text
`{"a":"1","b":"2"}` can resolve it to `a` and to `b`, and return different derived secrets. -/
theorem getJsonSecrets_path_result_depends_on_map_order :
    jsonUnmarshal stringObject = Unmarshalled.ok (some stringMap) ∧
    SecretValue.getJsonSecrets ⟨librarySearch [0], [0]⟩
        ⟨stringObject, pathDescriptor [⟨"keys(@)[0]", "x"⟩]⟩ =
      { s := some
          [⟨toBytes "a", ⟨"db-creds", "x", "secretsmanager", false, [], "_", "/mnt/secrets"⟩⟩]
        e := none } ∧
    SecretValue.getJsonSecrets ⟨librarySearch [1], [1]⟩
        ⟨stringObject, pathDescriptor [⟨"keys(@)[0]", "x"⟩]⟩ =
      { s := some
          [⟨toBytes "b", ⟨"db-creds", "x", "secretsmanager", false, [], "_", "/mnt/secrets"⟩⟩]
        e := none } ∧
    SecretValue.getJsonSecrets ⟨librarySearch [0], [0]⟩
        ⟨stringObject, pathDescriptor [⟨"keys(@)[0]", "x"⟩]⟩ ≠
      SecretValue.getJsonSecrets ⟨librarySearch [1], [1]⟩
        ⟨stringObject, pathDescriptor [⟨"keys(@)[0]", "x"⟩]⟩ :=
  ⟨by rfl, by decide, by decide, by decide⟩

/-- C15 as amended: two calls of `getJsonSecrets` on the same secret, each with its own query
evaluator and its own iteration order of the map, return in sync-all-keys mode the same error
and the same alias and value pairs up to order; in path mode they return the same error and
the same sequence provided every query path evaluates to the same result in both calls, as it
does when the evaluators agree with the library on chains of keys and every path is such a
chain. -/
theorem getJsonSecrets_deterministic_for_stable_queries (rt₁ rt₂ : Runtime) (p : SecretValue) :
    (p.Descriptor.SyncAllKeys = true →
      (p.getJsonSecrets rt₁).e = (p.getJsonSecrets rt₂).e ∧
      (((p.getJsonSecrets rt₁).s = none ∧ (p.getJsonSecrets rt₂).s = none) ∨
        ∃ out₁ out₂, (p.getJsonSecrets rt₁).s = some out₁ ∧
          (p.getJsonSecrets rt₂).s = some out₂ ∧
          (out₁.map (fun sv => (sv.Descriptor.ObjectAlias, sv.Value))).Perm
            (out₂.map (fun sv => (sv.Descriptor.ObjectAlias, sv.Value))))) ∧
    (p.Descriptor.SyncAllKeys = false →
      (∀ data, jsonUnmarshal p.Value = Unmarshalled.ok data →
        ∀ entry ∈ p.Descriptor.JMESPath,
          rt₁.search entry.Path data = rt₂.search entry.Path data) →
      p.getJsonSecrets rt₁ = p.getJsonSecrets rt₂) ∧
    (p.Descriptor.SyncAllKeys = false →
      (∀ expr data result, Jmes.chainResult expr data = some result →
        rt₁.search expr data = result) →
      (∀ expr data result, Jmes.chainResult expr data = some result →
        rt₂.search expr data = result) →
      (∀ entry ∈ p.Descriptor.JMESPath, (Jmes.readChain entry.Path).isSome = true) →
      p.getJsonSecrets rt₁ = p.getJsonSecrets rt₂) := by
  have hpath : p.Descriptor.SyncAllKeys = false →
      (∀ data, jsonUnmarshal p.Value = Unmarshalled.ok data →
        ∀ entry ∈ p.Descriptor.JMESPath,
          rt₁.search entry.Path data = rt₂.search entry.Path data) →
      p.getJsonSecrets rt₁ = p.getJsonSecrets rt₂ := by
    intro hsync hstable
    cases hparse : jsonUnmarshal p.Value with
    | failed =>
      rw [getJsonSecrets_failed rt₁ p hparse, getJsonSecrets_failed rt₂ p hparse]
    | ok data =>
      rw [getJsonSecrets_paths rt₁ p data hparse hsync,
        getJsonSecrets_paths rt₂ p data hparse hsync]
      exact jmesPathLoop_congr rt₁ rt₂ p data _ [] (hstable data hparse)
  refine ⟨?_, hpath, ?_⟩
  · intro hsync
    obtain ⟨_, he, hs⟩ := getJsonSecrets_sync_perm rt₁ rt₂ p p rfl rfl rfl rfl rfl hsync hsync
    refine ⟨he, ?_⟩
    rcases hs with hnone | ⟨out₁, out₂, h1, h2, hperm⟩
    · exact Or.inl hnone
    · exact Or.inr ⟨out₁, out₂, h1, h2, hperm.map _⟩
  · intro hsync hlib₁ hlib₂ hchains
    apply hpath hsync
    intro data _ entry he
    obtain ⟨result, hresult⟩ := chainResult_isSome entry.Path data (hchains entry he)
    rw [hlib₁ _ _ _ hresult, hlib₂ _ _ _ hresult]

theorem getJsonSecrets_deterministic_for_stable_queries_witness :
    (SecretValue.getJsonSecrets ⟨librarySearch [0], [0]⟩ ⟨mixedObject, syncDescriptor⟩).s.map
        (fun out => out.map (fun sv => (sv.Descriptor.ObjectAlias, sv.Value))) =
      some [("a", toBytes "1"), ("b", [])] ∧
    (SecretValue.getJsonSecrets ⟨librarySearch [1], [1]⟩ ⟨mixedObject, syncDescriptor⟩).s.map
        (fun out => out.map (fun sv => (sv.Descriptor.ObjectAlias, sv.Value))) =
      some [("b", []), ("a", toBytes "1")] ∧
    ((SecretValue.getJsonSecrets ⟨librarySearch [0], [0]⟩ ⟨mixedObject, syncDescriptor⟩).e =
        (SecretValue.getJsonSecrets ⟨librarySearch [1], [1]⟩ ⟨mixedObject, syncDescriptor⟩).e) ∧
    (SecretValue.getJsonSecrets ⟨librarySearch [0], [0]⟩
        ⟨stringObject, pathDescriptor [⟨"b", "y"⟩, ⟨"a", "x"⟩]⟩ =
      SecretValue.getJsonSecrets ⟨librarySearch [1], [1]⟩
        ⟨stringObject, pathDescriptor [⟨"b", "y"⟩, ⟨"a", "x"⟩]⟩) ∧
    SecretValue.getJsonSecrets ⟨librarySearch [0], [0]⟩
        ⟨stringObject, pathDescriptor [⟨"b", "y"⟩, ⟨"a", "x"⟩]⟩ =
      { s := some
          [⟨toBytes "2", ⟨"db-creds", "y", "secretsmanager", false, [], "_", "/mnt/secrets"⟩⟩,
           ⟨toBytes "1", ⟨"db-creds", "x", "secretsmanager", false, [], "_", "/mnt/secrets"⟩⟩]
        e := none } :=
  ⟨by decide, by decide,
    ((getJsonSecrets_deterministic_for_stable_queries ⟨librarySearch [0], [0]⟩
      ⟨librarySearch [1], [1]⟩ ⟨mixedObject, syncDescriptor⟩).1 rfl).1,
    (getJsonSecrets_deterministic_for_stable_queries ⟨librarySearch [0], [0]⟩
      ⟨librarySearch [1], [1]⟩
      ⟨stringObject, pathDescriptor [⟨"b", "y"⟩, ⟨"a", "x"⟩]⟩).2.2 rfl
      (librarySearch_chain [0]) (librarySearch_chain [1]) (by decide),
    by decide⟩

/-- C16: in path mode with a query evaluator that agrees with the library on chains of keys,
an entry whose path is such a chain and ends at a key that is present and holds `null` fails
with the error "JMES Path - <Path> for object alias - <ObjectAlias> does not point to a valid
object." and not with the error for a result of another type; and a secret with the same
descriptor in whose document that last key is absent gets the same result. -/
theorem getJsonSecrets_null_value_like_missing (rt rt1 : Runtime) (p q : SecretValue)
    (m m1 : JsonMap) (pre post : List JMESPathEntry) (entry : JMESPathEntry)
    (init : List GoString) (last : GoString) (obj obj1 : JsonMap)
    (hlib : ∀ expr data result, Jmes.chainResult expr data = some result →
      rt.search expr data = result)
    (hlib1 : ∀ expr data result, Jmes.chainResult expr data = some result →
      rt1.search expr data = result)
    (hparse : jsonUnmarshal p.Value = Unmarshalled.ok (some m))
    (hparse1 : jsonUnmarshal q.Value = Unmarshalled.ok (some m1))
    (hdesc : q.Descriptor = p.Descriptor)
    (hsync : p.Descriptor.SyncAllKeys = false)
    (hentries : p.Descriptor.JMESPath = pre ++ entry :: post)
    (hpre : ∀ earlier ∈ pre,
      ∃ str, rt.search earlier.Path (some m) = Except.ok (JsonValue.string str))
    (hpre1 : ∀ earlier ∈ pre,
      ∃ str, rt1.search earlier.Path (some m1) = Except.ok (JsonValue.string str))
    (hpath : Jmes.readChain entry.Path = some (Except.ok (init ++ [last])))
    (hobj : init.foldl Jmes.stepField (JsonValue.object m) = JsonValue.object obj)
    (_hpresent : last ∈ obj.map Prod.fst)
    (hnull : mapIndex obj last = JsonValue.null)
    (hobj1 : init.foldl Jmes.stepField (JsonValue.object m1) = JsonValue.object obj1)
    (habsent : last ∉ obj1.map Prod.fst) :
    p.getJsonSecrets rt =
      { s := none
        e := some ("JMES Path - " ++ entry.Path ++ " for object alias - " ++ entry.ObjectAlias ++
          " does not point to a valid object.") } ∧
    (p.getJsonSecrets rt).e ≠
      some ("Invalid JMES search result type for path:" ++ entry.Path ++
        ". Only string is allowed.") ∧
    q.getJsonSecrets rt1 = p.getJsonSecrets rt := by
  have hnil : rt.search entry.Path (some m) = Except.ok JsonValue.null := by
    rw [hlib _ _ _ (chainResult_of_chain entry.Path (some m) _ hpath)]
    simp only [List.foldl_append, List.foldl_cons, List.foldl_nil, Option.getD_some, hobj,
      Jmes.stepField, hnull]
  have hnil1 : rt1.search entry.Path (some m1) = Except.ok JsonValue.null := by
    rw [hlib1 _ _ _ (chainResult_of_chain entry.Path (some m1) _ hpath)]
    simp only [List.foldl_append, List.foldl_cons, List.foldl_nil, Option.getD_some, hobj1,
      Jmes.stepField, mapIndex_of_not_mem obj1 last habsent]
  have hres : p.getJsonSecrets rt =
      { s := none
        e := some ("JMES Path - " ++ entry.Path ++ " for object alias - " ++ entry.ObjectAlias ++
          " does not point to a valid object.") } := by
    rw [getJsonSecrets_paths rt p (some m) hparse hsync, hentries]
    apply jmesPathLoop_first_failure
    · simp [entryError, hnil]
    · exact fun e he => entryError_of_string rt (some m) e (hpre e he)
  refine ⟨hres, ?_, ?_⟩
  · rw [hres]
    simp only [ne_eq, Option.some.injEq]
    intro h
    have h2 := congrArg String.data h
    simp only [String.data_append] at h2
    have h3 := congrArg (fun l => l.get? 0) h2
    simp at h3
  · rw [hres, getJsonSecrets_paths rt1 q (some m1) hparse1 (by rw [hdesc]; exact hsync),
      hdesc, hentries]
    apply jmesPathLoop_first_failure
    · simp [entryError, hnil1]
    · exact fun e he => entryError_of_string rt1 (some m1) e (hpre1 e he)

theorem getJsonSecrets_null_value_like_missing_witness :
    (jsonUnmarshal nullValueObject = Unmarshalled.ok (some [("a", JsonValue.null)]) ∧
      jsonUnmarshal emptyObject = Unmarshalled.ok (some []) ∧
      SecretValue.getJsonSecrets ⟨librarySearch [], []⟩
          ⟨nullValueObject, pathDescriptor [⟨"a", "x"⟩]⟩ =
        { s := none
          e := some "JMES Path - a for object alias - x does not point to a valid object." } ∧
      SecretValue.getJsonSecrets ⟨librarySearch [], []⟩
          ⟨emptyObject, pathDescriptor [⟨"a", "x"⟩]⟩ =
        SecretValue.getJsonSecrets ⟨librarySearch [], []⟩
          ⟨nullValueObject, pathDescriptor [⟨"a", "x"⟩]⟩) ∧
    (jsonUnmarshal nestedNullObject =
        Unmarshalled.ok (some [("db", JsonValue.object [("pass word", JsonValue.null)])]) ∧
      jsonUnmarshal nestedEmptyObject =
        Unmarshalled.ok (some [("db", JsonValue.object [])]) ∧
      Jmes.readChain "db.\"pass word\"" = some (Except.ok ["db", "pass word"]) ∧
      SecretValue.getJsonSecrets ⟨librarySearch [], []⟩
          ⟨nestedNullObject, pathDescriptor [⟨"db.\"pass word\"", "pw"⟩]⟩ =
        { s := none
          e := some ("JMES Path - db.\"pass word\" for object alias - pw does not point to a " ++
            "valid object.") } ∧
      SecretValue.getJsonSecrets ⟨librarySearch [], []⟩
          ⟨nestedEmptyObject, pathDescriptor [⟨"db.\"pass word\"", "pw"⟩]⟩ =
        SecretValue.getJsonSecrets ⟨librarySearch [], []⟩
          ⟨nestedNullObject, pathDescriptor [⟨"db.\"pass word\"", "pw"⟩]⟩) :=
  ⟨⟨by rfl, by rfl,
      (getJsonSecrets_null_value_like_missing ⟨librarySearch [], []⟩ ⟨librarySearch [], []⟩
        ⟨nullValueObject, pathDescriptor [⟨"a", "x"⟩]⟩
        ⟨emptyObject, pathDescriptor [⟨"a", "x"⟩]⟩
        [("a", JsonValue.null)] [] [] [] ⟨"a", "x"⟩ [] "a" [("a", JsonValue.null)] []
        (librarySearch_chain []) (librarySearch_chain []) (by rfl) (by rfl) rfl (by rfl)
        (by rfl) (by intro e he; cases he) (by intro e he; cases he) (by rfl) (by rfl)
        (by decide) (by rfl) (by rfl) (by decide)).1,
      (getJsonSecrets_null_value_like_missing ⟨librarySearch [], []⟩ ⟨librarySearch [], []⟩
        ⟨nullValueObject, pathDescriptor [⟨"a", "x"⟩]⟩
        ⟨emptyObject, pathDescriptor [⟨"a", "x"⟩]⟩
        [("a", JsonValue.null)] [] [] [] ⟨"a", "x"⟩ [] "a" [("a", JsonValue.null)] []
        (librarySearch_chain []) (librarySearch_chain []) (by rfl) (by rfl) rfl (by rfl)
        (by rfl) (by intro e he; cases he) (by intro e he; cases he) (by rfl) (by rfl)
        (by decide) (by rfl) (by rfl) (by decide)).2.2⟩,
    ⟨by rfl, by rfl, by rfl,
      (getJsonSecrets_null_value_like_missing ⟨librarySearch [], []⟩ ⟨librarySearch [], []⟩
        ⟨nestedNullObject, pathDescriptor [⟨"db.\"pass word\"", "pw"⟩]⟩
        ⟨nestedEmptyObject, pathDescriptor [⟨"db.\"pass word\"", "pw"⟩]⟩
        [("db", JsonValue.object [("pass word", JsonValue.null)])]
        [("db", JsonValue.object [])] [] [] ⟨"db.\"pass word\"", "pw"⟩ ["db"] "pass word"
        [("pass word", JsonValue.null)] []
        (librarySearch_chain []) (librarySearch_chain []) (by rfl) (by rfl) rfl (by rfl)
        (by rfl) (by intro e he; cases he) (by intro e he; cases he) (by rfl) (by rfl)
        (by decide) (by rfl) (by rfl) (by decide)).1,
      (getJsonSecrets_null_value_like_missing ⟨librarySearch [], []⟩ ⟨librarySearch [], []⟩
        ⟨nestedNullObject, pathDescriptor [⟨"db.\"pass word\"", "pw"⟩]⟩
        ⟨nestedEmptyObject, pathDescriptor [⟨"db.\"pass word\"", "pw"⟩]⟩
        [("db", JsonValue.object [("pass word", JsonValue.null)])]
        [("db", JsonValue.object [])] [] [] ⟨"db.\"pass word\"", "pw"⟩ ["db"] "pass word"
        [("pass word", JsonValue.null)] []
        (librarySearch_chain []) (librarySearch_chain []) (by rfl) (by rfl) rfl (by rfl)
        (by rfl) (by intro e he; cases he) (by intro e he; cases he) (by rfl) (by rfl)
        (by decide) (by rfl) (by rfl) (by decide)).2.2⟩⟩

/-- C17: in sync-all-keys mode the aliases of the derived secrets one successful call
returns are pairwise distinct, for every value. -/
theorem getJsonSecrets_syncAllKeys_aliases_distinct (rt : Runtime) (p : SecretValue)
    (out : List SecretValue)
    (hsync : p.Descriptor.SyncAllKeys = true)
    (hout : (p.getJsonSecrets rt).s = some out) :
    (out.map (fun sv => sv.Descriptor.ObjectAlias)).Nodup := by
  cases hparse : jsonUnmarshal p.Value with
  | failed =>
    rw [getJsonSecrets_failed rt p hparse] at hout
    cases hout
  | ok data =>
    rw [getJsonSecrets_sync rt p data hparse hsync] at hout
    simp only [Option.some.injEq] at hout
    have hnd : ((data.getD []).map Prod.fst).Nodup := by
      cases data with
      | none => exact List.nodup_nil
      | some m => exact jsonUnmarshal_nodup _ _ hparse
    have halias : out.map (fun sv => sv.Descriptor.ObjectAlias) =
        (rangeOrder rt.order (data.getD [])).map Prod.fst := by
      rw [← hout, List.map_map]
      rfl
    rw [halias]
    exact ((rangeOrder_perm rt.order (data.getD [])).map Prod.fst).nodup_iff.mpr hnd

theorem getJsonSecrets_syncAllKeys_aliases_distinct_witness :
    (SecretValue.getJsonSecrets exampleRuntime ⟨mixedObject, syncDescriptor⟩).s =
      some
        [⟨[], ⟨"db-creds", "b", "secretsmanager", false, [], "_", "/mnt/secrets"⟩⟩,
         ⟨toBytes "1", ⟨"db-creds", "a", "secretsmanager", false, [], "_", "/mnt/secrets"⟩⟩] ∧
    ([(⟨[], ⟨"db-creds", "b", "secretsmanager", false, [], "_", "/mnt/secrets"⟩⟩ : SecretValue),
      ⟨toBytes "1", ⟨"db-creds", "a", "secretsmanager", false, [], "_", "/mnt/secrets"⟩⟩].map
        (fun sv => sv.Descriptor.ObjectAlias)).Nodup :=
  ⟨by decide,
    getJsonSecrets_syncAllKeys_aliases_distinct exampleRuntime ⟨mixedObject, syncDescriptor⟩ _
      (by rfl) (by decide)⟩

/-- C18: in path mode, when the entries before a query entry resolve to strings and that
entry's path resolves to the empty string, the entry does not fail: a call returns an error
only when a later entry fails, and when the later entries resolve to strings the call succeeds
and the derived secret at the position of the entry has no bytes as `Value` and the alias of
the entry. -/
theorem getJsonSecrets_empty_string_accepted (rt : Runtime) (p : SecretValue) (m : JsonMap)
    (pre post : List JMESPathEntry) (entry : JMESPathEntry)
    (hparse : jsonUnmarshal p.Value = Unmarshalled.ok (some m))
    (hsync : p.Descriptor.SyncAllKeys = false)
    (hentries : p.Descriptor.JMESPath = pre ++ entry :: post)
    (hpre : ∀ earlier ∈ pre,
      ∃ str, rt.search earlier.Path (some m) = Except.ok (JsonValue.string str))
    (hempty : rt.search entry.Path (some m) = Except.ok (JsonValue.string "")) :
    entryError rt (some m) entry = none ∧
    ((p.getJsonSecrets rt).e ≠ none ↔
      ∃ later ∈ post, entryError rt (some m) later ≠ none) ∧
    ((∀ later ∈ post,
        ∃ str, rt.search later.Path (some m) = Except.ok (JsonValue.string str)) →
      ∃ out sv, p.getJsonSecrets rt = { s := some out, e := none } ∧
        out[pre.length]? = some sv ∧ sv.Value = [] ∧
        sv.Descriptor.ObjectAlias = entry.ObjectAlias) := by
  have hentry : entryError rt (some m) entry = none :=
    entryError_of_string rt (some m) entry ⟨"", hempty⟩
  have hpre0 : ∀ earlier ∈ pre, entryError rt (some m) earlier = none :=
    fun e he => entryError_of_string rt (some m) e (hpre e he)
  refine ⟨hentry, ?_, ?_⟩
  · rw [getJsonSecrets_paths rt p (some m) hparse hsync, hentries]
    rcases jmesPathLoop_outcome rt p (some m) (pre ++ entry :: post) [] with
      ⟨hall, out, hout⟩ | ⟨⟨bad, hbad, hne⟩, msg, hmsg⟩
    · rw [hout]
      constructor
      · intro h
        exact absurd rfl h
      · rintro ⟨later, hlater, hne⟩
        exact absurd (hall later (List.mem_append_right _ (List.mem_cons_of_mem _ hlater))) hne
    · rw [hmsg]
      refine ⟨fun _ => ?_, fun _ => by simp⟩
      rcases List.mem_append.mp hbad with h | h
      · exact absurd (hpre0 bad h) hne
      · rcases List.mem_cons.mp h with h | h
        · rw [h] at hne
          exact absurd hentry hne
        · exact ⟨bad, h, hne⟩
  · intro hpost
    have hall : ∀ e ∈ pre ++ entry :: post,
        ∃ str, rt.search e.Path (some m) = Except.ok (JsonValue.string str) := by
      intro e he
      rcases List.mem_append.mp he with h | h
      · exact hpre e h
      · rcases List.mem_cons.mp h with h | h
        · rw [h]
          exact ⟨"", hempty⟩
        · exact hpost e h
    rcases jmesPathLoop_outcome rt p (some m) (pre ++ entry :: post) [] with
      ⟨_, out, hout⟩ | ⟨⟨bad, hbad, hne⟩, _⟩
    · obtain ⟨f, hf, hmap⟩ := jmesPathLoop_success rt p (some m) _ _ _ hout
      have hfe : f entry = "" := by
        have h1 := hf entry (List.mem_append_right _ (List.mem_cons_self _ _))
        rw [hempty] at h1
        simp only [Except.ok.injEq, JsonValue.string.injEq] at h1
        exact h1.symm
      refine ⟨out, SecretValue.mk (toBytes (f entry))
        (p.Descriptor.getJmesEntrySecretDescriptor entry), ?_, ?_, ?_, rfl⟩
      · rw [getJsonSecrets_paths rt p (some m) hparse hsync, hentries]
        exact hout
      · rw [hmap, List.nil_append, List.map_append, List.map_cons,
          List.getElem?_append_right (by simp)]
        simp
      · rw [hfe]
        rfl
    · exact absurd (entryError_of_string rt (some m) bad (hall bad hbad)) hne

theorem getJsonSecrets_empty_string_accepted_witness :
    jsonUnmarshal emptyStringObject = Unmarshalled.ok (some [("a", JsonValue.string "")]) ∧
    fieldSearch "a" (some [("a", JsonValue.string "")]) = Except.ok (JsonValue.string "") ∧
    SecretValue.getJsonSecrets exampleRuntime ⟨emptyStringObject, pathDescriptor [⟨"a", "x"⟩]⟩ =
      { s := some [⟨[], ⟨"db-creds", "x", "secretsmanager", false, [], "_", "/mnt/secrets"⟩⟩]
        e := none } ∧
    ∃ out sv, SecretValue.getJsonSecrets exampleRuntime
        ⟨emptyStringObject, pathDescriptor [⟨"a", "x"⟩]⟩ = { s := some out, e := none } ∧
      out[([] : List JMESPathEntry).length]? = some sv ∧ sv.Value = [] ∧
      sv.Descriptor.ObjectAlias = "x" :=
  ⟨by rfl, by rfl, by decide,
    (getJsonSecrets_empty_string_accepted exampleRuntime
      ⟨emptyStringObject, pathDescriptor [⟨"a", "x"⟩]⟩ [("a", JsonValue.string "")] [] []
      ⟨"a", "x"⟩ (by rfl) (by rfl) (by rfl) (by intro e he; cases he) (by rfl)).2.2
      (by intro e he; cases he)⟩
